import Mathlib

/-!
# AlwaysOn protocol codec — verification development

A shallow embedding of the AlwaysOn (ThingWorx) wire-protocol codec and of the
pure helper functions of the repository's example scripts, together with proofs
of the specified round-trip, canonicity, truncation-safety, tag-closure,
message-flag, builder, persistence-bridge and size-limit properties.

The repository ships only the Python binding surface and example scripts; the
codec implementation itself (a native library) is not part of the sources, so
the codec definitions below are modelled from the specification (each such
definition says so in its doc comment).  The helper functions
`read_avro_varint` and `is_printable_string` are translated directly from
`examples/test_persist_avro_thingworx.py`.

Bytes are modelled as `Nat` values; a buffer is a `List Nat` whose members are
below 256 where that matters (stated as a hypothesis on theorems about
arbitrary input buffers).
-/

namespace AlwaysOn

/-! ## Fixed-width big-endian integer fields -/

/-- Value of a big-endian byte string. -/
def bytesToNat (l : List Nat) : Nat := l.foldl (fun a b => a * 256 + b) 0

/-- Big-endian encoding of `n` in exactly `w` bytes. -/
def natToBytes : Nat → Nat → List Nat
  | 0, _ => []
  | w + 1, n => natToBytes w (n / 256) ++ [n % 256]

/-! ## Error taxonomy (spec §7) -/

/-- Modelled from the spec: the closed error taxonomy of §7.  The codec
implementation is not in the repository sources; only the error kinds are
specified. -/
inductive TwErr where
  | TruncatedInput
  | UnknownTypeTag
  | MalformedLength
  | DeclaredSizeExceedsLimit
  | ColumnKindMismatch
  | DuplicateColumnName
  | UnknownMessageKind
  | FrameTooShort
  | InvalidBuilderInput
  | EmbeddedValueDecodeError (cause : TwErr)
deriving DecidableEq

/-! ## Primitive values (spec §3, §4.1) -/

/-- The closed set of primitive kinds. -/
inductive BaseType where
  | Nothing
  | Boolean
  | Integer
  | Number
  | String
  | DateTime
  | Blob
  | VariantList
  | Table
deriving DecidableEq, BEq

/-- Modelled from the spec: the discriminated union of primitive values
(§3).  Fixed-width numeric payloads (`integer`, `number`, `datetime`) are
modelled as the raw fixed-width wire word (a `Nat` below `2^64`); strings and
blobs as raw byte lists; a table as its column definitions (name, declared
kind) plus its rows of cells. -/
inductive TwPrim where
  | nothing
  | boolean (b : Bool)
  | integer (n : Nat)
  | number (bits : Nat)
  | string (s : List Nat)
  | datetime (ms : Nat)
  | blob (bs : List Nat)
  | variantlist (vs : List TwPrim)
  | table (cols : List (List Nat × BaseType)) (rows : List (List TwPrim))

/-- Kind tag of a value. -/
def kindOf : TwPrim → BaseType
  | .nothing => .Nothing
  | .boolean _ => .Boolean
  | .integer _ => .Integer
  | .number _ => .Number
  | .string _ => .String
  | .datetime _ => .DateTime
  | .blob _ => .Blob
  | .variantlist _ => .VariantList
  | .table _ _ => .Table

/-- Modelled from the spec: wire tag byte of each kind (the exact numeric
assignment is an open question of the spec; the example scripts indicate
`0x00 = NOTHING, 0x01 = BOOLEAN, 0x02 = INTEGER, etc.`). -/
def tagOfBase : BaseType → Nat
  | .Nothing => 0
  | .Boolean => 1
  | .Integer => 2
  | .Number => 3
  | .String => 4
  | .DateTime => 5
  | .Blob => 6
  | .VariantList => 7
  | .Table => 8

/-- Inverse of `tagOfBase`: `none` for a tag byte outside the closed set. -/
def baseOfTag : Nat → Option BaseType
  | 0 => some .Nothing
  | 1 => some .Boolean
  | 2 => some .Integer
  | 3 => some .Number
  | 4 => some .String
  | 5 => some .DateTime
  | 6 => some .Blob
  | 7 => some .VariantList
  | 8 => some .Table
  | _ => none

/-! ### Configured maxima (spec §4.3, §5: configurable caps, modelled as
constants) -/

def maxFieldBytes : Nat := 1048576
def maxListItems : Nat := 65536
def maxColumns : Nat := 1024
def maxRows : Nat := 65536
def maxNameBytes : Nat := 1024

/-! ### Encoding (spec §4.1 wire layout) -/

/-- Encoding of one column definition: length-prefixed name, then the declared
kind's tag byte. -/
def encodeCol (c : List Nat × BaseType) : List Nat :=
  natToBytes 4 c.1.length ++ c.1 ++ [tagOfBase c.2]

/-- Concatenated column-definition encodings. -/
def encodeCols : List (List Nat × BaseType) → List Nat
  | [] => []
  | c :: cs => encodeCol c ++ encodeCols cs

mutual
/-- Modelled from the spec: §4.1 wire layout.  One leading tag byte; boolean
payload one byte; integer / number / datetime a fixed 8-byte field; string and
blob length-prefixed (4-byte length); variant list count-prefixed with the
items concatenated; table encodes column count, column definitions, row count,
then each row's cells in column order, each cell length-prefixed. -/
def encode : TwPrim → List Nat
  | .nothing => [0]
  | .boolean b => [1, cond b 1 0]
  | .integer n => 2 :: natToBytes 8 n
  | .number bits => 3 :: natToBytes 8 bits
  | .string s => 4 :: natToBytes 4 s.length ++ s
  | .datetime ms => 5 :: natToBytes 8 ms
  | .blob bs => 6 :: natToBytes 4 bs.length ++ bs
  | .variantlist vs => 7 :: natToBytes 4 vs.length ++ encodeList vs
  | .table cols rows =>
      8 :: natToBytes 4 cols.length ++ encodeCols cols
        ++ natToBytes 4 rows.length ++ encodeRows rows

/-- Concatenated encodings of a list of values. -/
def encodeList : List TwPrim → List Nat
  | [] => []
  | v :: vs => encode v ++ encodeList vs

/-- A row: each cell is a length-prefixed nested primitive encoding. -/
def encodeCells : List TwPrim → List Nat
  | [] => []
  | v :: r => natToBytes 4 (encode v).length ++ encode v ++ encodeCells r

/-- Concatenated row encodings. -/
def encodeRows : List (List TwPrim) → List Nat
  | [] => []
  | r :: rs => encodeCells r ++ encodeRows rs
end

/-! ### Well-formedness of in-memory values -/

/-- All entries are bytes. -/
def bytesOK (l : List Nat) : Bool := l.all (fun c => decide (c < 256))

/-- One column definition is representable. -/
def colOK (c : List Nat × BaseType) : Bool :=
  decide (c.1.length ≤ maxNameBytes) && bytesOK c.1

def colsOK (cols : List (List Nat × BaseType)) : Bool := cols.all colOK

/-- Column names are pairwise distinct. -/
def nodupNames : List (List Nat) → Bool
  | [] => true
  | n :: ns => !(ns.contains n) && nodupNames ns

/-- A cell value may be `nothing` (null cell) or must match the column's
declared kind. -/
def cellOK (k : BaseType) : TwPrim → Bool
  | .nothing => true
  | v => kindOf v == k

mutual
/-- Modelled from the spec: a value is representable (constructible) when
every fixed-width payload fits its field, every variable-length payload is a
byte string within the configured cap, every declared count is within its cap,
column names are distinct, and every cell matches its column's declared kind
(or is `nothing`). -/
def WFb : TwPrim → Bool
  | .nothing => true
  | .boolean _ => true
  | .integer n => decide (n < 2 ^ 64)
  | .number bits => decide (bits < 2 ^ 64)
  | .string s => decide (s.length ≤ maxFieldBytes) && bytesOK s
  | .datetime ms => decide (ms < 2 ^ 64)
  | .blob bs => decide (bs.length ≤ maxFieldBytes) && bytesOK bs
  | .variantlist vs => decide (vs.length ≤ maxListItems) && WFbList vs
  | .table cols rows =>
      decide (cols.length ≤ maxColumns) && colsOK cols
        && nodupNames (cols.map Prod.fst)
        && decide (rows.length ≤ maxRows)
        && WFbRows (cols.map Prod.snd) rows

def WFbList : List TwPrim → Bool
  | [] => true
  | v :: vs => WFb v && WFbList vs

def WFbRow : List BaseType → List TwPrim → Bool
  | [], [] => true
  | k :: ks, v :: r =>
      cellOK k v && WFb v && decide ((encode v).length < 2 ^ 32) && WFbRow ks r
  | _, _ => false

def WFbRows (ks : List BaseType) : List (List TwPrim) → Bool
  | [] => true
  | r :: rs => WFbRow ks r && WFbRows ks rs
end

/-! ### Decoding (spec §4.1 contract) -/

/-- Read exactly `k` bytes; `TruncatedInput` when fewer are available. -/
def readN (k : Nat) (b : List Nat) : Except TwErr (List Nat × List Nat) :=
  if k ≤ b.length then .ok (b.take k, b.drop k) else .error .TruncatedInput

/-- Read a fixed-width big-endian integer field. -/
def readFix (w : Nat) (b : List Nat) : Except TwErr (Nat × List Nat) :=
  match readN w b with
  | .ok (bs, rest) => .ok (bytesToNat bs, rest)
  | .error e => .error e

/-- Decode `n` consecutive values with the given item decoder. -/
def decodeItems (dec : List Nat → Except TwErr (TwPrim × List Nat)) :
    Nat → List Nat → Except TwErr (List TwPrim × List Nat)
  | 0, b => .ok ([], b)
  | n + 1, b =>
    match dec b with
    | .error e => .error e
    | .ok (v, b') =>
      match decodeItems dec n b' with
      | .error e => .error e
      | .ok (vs, b'') => .ok (v :: vs, b'')

/-- Decode one column definition. -/
def decodeCol (b : List Nat) : Except TwErr ((List Nat × BaseType) × List Nat) :=
  match readFix 4 b with
  | .error e => .error e
  | .ok (len, b1) =>
    if len ≤ maxNameBytes then
      match readN len b1 with
      | .error e => .error e
      | .ok (name, b2) =>
        match b2 with
        | [] => .error .TruncatedInput
        | t :: b3 =>
          match baseOfTag t with
          | some k => .ok ((name, k), b3)
          | none => .error .UnknownTypeTag
    else .error .DeclaredSizeExceedsLimit

/-- Decode `n` column definitions. -/
def decodeColsN : Nat → List Nat → Except TwErr (List (List Nat × BaseType) × List Nat)
  | 0, b => .ok ([], b)
  | n + 1, b =>
    match decodeCol b with
    | .error e => .error e
    | .ok (c, b') =>
      match decodeColsN n b' with
      | .error e => .error e
      | .ok (cs, b'') => .ok (c :: cs, b'')

/-- Decode one length-prefixed cell: the nested encoding must fill the
declared length exactly (`MalformedLength` otherwise) and its tag must match
the column's declared kind (`ColumnKindMismatch` otherwise). -/
def decodeCell (dec : List Nat → Except TwErr (TwPrim × List Nat))
    (k : BaseType) (b : List Nat) : Except TwErr (TwPrim × List Nat) :=
  match readFix 4 b with
  | .error e => .error e
  | .ok (len, b1) =>
    match readN len b1 with
    | .error e => .error e
    | .ok (cell, b2) =>
      match dec cell with
      | .error e => .error e
      | .ok (v, rest) =>
        if rest = [] then
          if cellOK k v then .ok (v, b2) else .error .ColumnKindMismatch
        else .error .MalformedLength

/-- Decode one row: one cell per declared column, in column order. -/
def decodeRow (dec : List Nat → Except TwErr (TwPrim × List Nat)) :
    List BaseType → List Nat → Except TwErr (List TwPrim × List Nat)
  | [], b => .ok ([], b)
  | k :: ks, b =>
    match decodeCell dec k b with
    | .error e => .error e
    | .ok (v, b') =>
      match decodeRow dec ks b' with
      | .error e => .error e
      | .ok (r, b'') => .ok (v :: r, b'')

/-- Decode `n` rows. -/
def decodeRowsN (dec : List Nat → Except TwErr (TwPrim × List Nat))
    (ks : List BaseType) : Nat → List Nat → Except TwErr (List (List TwPrim) × List Nat)
  | 0, b => .ok ([], b)
  | n + 1, b =>
    match decodeRow dec ks b with
    | .error e => .error e
    | .ok (r, b') =>
      match decodeRowsN dec ks n b' with
      | .error e => .error e
      | .ok (rs, b'') => .ok (r :: rs, b'')

/-- Payload decoder for one identified kind: a shortfall of input bytes is
`TruncatedInput` (retryable, §7); a declared count or length above its
configured cap is `DeclaredSizeExceedsLimit`, checked before the payload is
read; duplicate column names are `DuplicateColumnName`; non-canonical payloads
are rejected so that no alternate encoding of a logical value is accepted.
Nested values are decoded with `dec`. -/
def decodePayload (dec : List Nat → Except TwErr (TwPrim × List Nat)) :
    BaseType → List Nat → Except TwErr (TwPrim × List Nat)
  | .Nothing, b0 => .ok (.nothing, b0)
  | .Boolean, b0 =>
    match b0 with
    | [] => .error .TruncatedInput
    | x :: b1 =>
      if x = 0 then .ok (.boolean false, b1)
      else if x = 1 then .ok (.boolean true, b1)
      else .error .MalformedLength
  | .Integer, b0 =>
    match readN 8 b0 with
    | .error e => .error e
    | .ok (bs, r) => .ok (.integer (bytesToNat bs), r)
  | .Number, b0 =>
    match readN 8 b0 with
    | .error e => .error e
    | .ok (bs, r) => .ok (.number (bytesToNat bs), r)
  | .String, b0 =>
    match readFix 4 b0 with
    | .error e => .error e
    | .ok (len, b1) =>
      if len ≤ maxFieldBytes then
        match readN len b1 with
        | .error e => .error e
        | .ok (s, r) => .ok (.string s, r)
      else .error .DeclaredSizeExceedsLimit
  | .DateTime, b0 =>
    match readN 8 b0 with
    | .error e => .error e
    | .ok (bs, r) => .ok (.datetime (bytesToNat bs), r)
  | .Blob, b0 =>
    match readFix 4 b0 with
    | .error e => .error e
    | .ok (len, b1) =>
      if len ≤ maxFieldBytes then
        match readN len b1 with
        | .error e => .error e
        | .ok (bs, r) => .ok (.blob bs, r)
      else .error .DeclaredSizeExceedsLimit
  | .VariantList, b0 =>
    match readFix 4 b0 with
    | .error e => .error e
    | .ok (n, b1) =>
      if n ≤ maxListItems then
        match decodeItems dec n b1 with
        | .error e => .error e
        | .ok (vs, r) => .ok (.variantlist vs, r)
      else .error .DeclaredSizeExceedsLimit
  | .Table, b0 =>
    match readFix 4 b0 with
    | .error e => .error e
    | .ok (nc, b1) =>
      if nc ≤ maxColumns then
        match decodeColsN nc b1 with
        | .error e => .error e
        | .ok (cols, b2) =>
          if nodupNames (cols.map Prod.fst) then
            match readFix 4 b2 with
            | .error e => .error e
            | .ok (nr, b3) =>
              if nr ≤ maxRows then
                match decodeRowsN dec (cols.map Prod.snd) nr b3 with
                | .error e => .error e
                | .ok (rows, b4) => .ok (.table cols rows, b4)
              else .error .DeclaredSizeExceedsLimit
          else .error .DuplicateColumnName
      else .error .DeclaredSizeExceedsLimit

/-- Modelled from the spec: one step of the primitive decoder (§4.1).  Reads
the leading tag byte (`TruncatedInput` on empty input, `UnknownTypeTag`
outside the closed set — the wire tag and the in-memory kind stay in 1:1
correspondence), then the payload of the identified kind. -/
def decodeStep (dec : List Nat → Except TwErr (TwPrim × List Nat))
    (b : List Nat) : Except TwErr (TwPrim × List Nat) :=
  match b with
  | [] => .error .TruncatedInput
  | t :: b0 =>
    match baseOfTag t with
    | none => .error .UnknownTypeTag
    | some k => decodePayload dec k b0

/-- Fuel-indexed primitive decoder; each nesting level consumes one unit of
fuel, and the tag byte of each level consumes one input byte, so fuel
`b.length + 1` is always enough (exhausted fuel reads past the end of real
input and reports `TruncatedInput`). -/
def decodeP (fuel : Nat) : List Nat → Except TwErr (TwPrim × List Nat) :=
  Nat.rec (motive := fun _ => List Nat → Except TwErr (TwPrim × List Nat))
    (fun _ => .error .TruncatedInput) (fun _ ih => decodeStep ih) fuel

/-- Modelled from the spec: `decode(bytes) -> (PrimitiveValue, bytes_consumed)`
(§4.1 contract). -/
def decode (b : List Nat) : Except TwErr (TwPrim × Nat) :=
  match decodeP (b.length + 1) b with
  | .ok (v, rest) => .ok (v, b.length - rest.length)
  | .error e => .error e

/-! ## Message framer (spec §4.2) -/

/-- The enumerated message kinds. -/
inductive MsgKind where
  | Request
  | Response
  | Auth
  | Bind
deriving DecidableEq, BEq

/-- Modelled from the spec: the message-kind tag byte (exact assignment is an
open question of the spec). -/
def tagOfMsgKind : MsgKind → Nat
  | .Request => 0
  | .Response => 1
  | .Auth => 2
  | .Bind => 3

def msgKindOfTag : Nat → Option MsgKind
  | 0 => some .Request
  | 1 => some .Response
  | 2 => some .Auth
  | 3 => some .Bind
  | _ => none

/-- Modelled from the spec: the framed envelope (§3, §4.2): kind, request
identifier, session identifier, endpoint string, and an optional primitive
payload.  The boolean classification flags are not stored; they are the
derived queries below. -/
structure TwxMessage where
  kind : MsgKind
  requestId : Nat
  sessionId : Nat
  endpoint : List Nat
  payload : Option TwPrim

def is_request (m : TwxMessage) : Bool := m.kind == .Request
def is_response (m : TwxMessage) : Bool := m.kind == .Response
def is_auth (m : TwxMessage) : Bool := m.kind == .Auth
def is_bind (m : TwxMessage) : Bool := m.kind == .Bind

/-- Which kinds carry a payload (shape is a pure function of the kind). -/
def hasPayload : MsgKind → Bool
  | .Bind => false
  | _ => true

/-- Modelled from the spec: §4.2 header layout — kind tag, request id,
session id (fixed 4-byte fields), length-prefixed endpoint, then the payload
determined by the kind. -/
def encodeMsg (m : TwxMessage) : List Nat :=
  tagOfMsgKind m.kind :: natToBytes 4 m.requestId ++ natToBytes 4 m.sessionId
    ++ natToBytes 4 m.endpoint.length ++ m.endpoint
    ++ (match m.payload with | some v => encode v | none => [])

/-- Modelled from the spec: `decode_message` (§4.2 contract): `FrameTooShort`
when the header cannot be read, `UnknownMessageKind` for an unrecognized kind
tag, payload decoding delegated to the primitive decoder with its errors
propagated. -/
def decodeMsg (b : List Nat) : Except TwErr TwxMessage :=
  match b with
  | [] => .error .FrameTooShort
  | t :: b0 =>
    match msgKindOfTag t with
    | none => .error .UnknownMessageKind
    | some k =>
      match readN 4 b0 with
      | .error _ => .error .FrameTooShort
      | .ok (ridB, b1) =>
        match readN 4 b1 with
        | .error _ => .error .FrameTooShort
        | .ok (sidB, b2) =>
          match readN 4 b2 with
          | .error _ => .error .FrameTooShort
          | .ok (elenB, b3) =>
            match readN (bytesToNat elenB) b3 with
            | .error _ => .error .FrameTooShort
            | .ok (ep, b4) =>
              if hasPayload k then
                match decodeP (b4.length + 1) b4 with
                | .error e => .error e
                | .ok (v, _) =>
                  .ok ⟨k, bytesToNat ridB, bytesToNat sidB, ep, some v⟩
              else .ok ⟨k, bytesToNat ridB, bytesToNat sidB, ep, none⟩

/-- Modelled from the spec: the auth-message builder (§4.2): takes a session
id and a credential string, validates structurally (`InvalidBuilderInput`
when a field does not fit its wire representation). -/
def build_auth (sessionId : Nat) (credential : List Nat) :
    Except TwErr TwxMessage :=
  if sessionId < 2 ^ 32 && decide (credential.length ≤ maxFieldBytes)
      && bytesOK credential then
    .ok ⟨.Auth, 0, sessionId, [], some (.string credential)⟩
  else .error .InvalidBuilderInput

/-! ## Persistence bridge (spec §4.4) -/

/-- Outer persistence record shape, per the `AvroPersistentPropertyEntry`
schema of `examples/test_persist_avro_thingworx.py`: the outer generic decoder
(an external collaborator) produces these fields, with `value` an opaque byte
blob. -/
structure AvroPersistentPropertyEntry where
  source : Option (List Nat)
  id : Option (List Nat)
  entryTimestamp : Nat
  forceOverwrite : Bool
  propertyName : Option (List Nat)
  vtqTimestamp : Nat
  qualityStatus : Nat
  value : Option (List Nat)

/-- Decode a blob as exactly one primitive value (full consumption). -/
def decodeFull (b : List Nat) : Except TwErr TwPrim :=
  match decodeP (b.length + 1) b with
  | .ok (v, rest) => if rest.isEmpty then .ok v else .error .MalformedLength
  | .error e => .error e

/-- Modelled from the spec: `decode_embedded_value` (§4.4 contract) delegates
to the primitive codec and wraps any failure as `EmbeddedValueDecodeError`
carrying the cause. -/
def decode_embedded_value (blob : List Nat) : Except TwErr TwPrim :=
  match decodeFull blob with
  | .ok v => .ok v
  | .error e => .error (.EmbeddedValueDecodeError e)

/-- The composite durable-queue record (spec §3): outer fields passed through
verbatim plus the decoded embedded primitive. -/
structure DurableQueueRecord where
  operationType : Nat
  source : Option (List Nat)
  id : Option (List Nat)
  entryTimestamp : Nat
  forceOverwrite : Bool
  propertyName : Option (List Nat)
  vtqTimestamp : Nat
  qualityStatus : Nat
  decodedValue : Option TwPrim

/-- Modelled from the spec: the persistence bridge (§4.4) assembles the
composite record from the outer-decoded structure, passing every outer field
through verbatim and decoding the value blob with the primitive codec. -/
def decodeQueueRecord (opType : Nat) (e : AvroPersistentPropertyEntry) :
    Except TwErr DurableQueueRecord :=
  match e.value with
  | none =>
    .ok ⟨opType, e.source, e.id, e.entryTimestamp, e.forceOverwrite,
      e.propertyName, e.vtqTimestamp, e.qualityStatus, none⟩
  | some blob =>
    match decode_embedded_value blob with
    | .error err => .error err
    | .ok v =>
      .ok ⟨opType, e.source, e.id, e.entryTimestamp, e.forceOverwrite,
        e.propertyName, e.vtqTimestamp, e.qualityStatus, some v⟩

/-! ## Helper functions of `examples/test_persist_avro_thingworx.py`
(translated from the source) -/

/-- Loop of `read_avro_varint`: accumulator `n`, current `shift`, running
`bytes_read`; a continuation byte (bit `0x80` set) accumulates its low seven
bits, a final byte terminates with the zigzag decoding; exhausting the input
inside the loop is the `ValueError` (`none`). -/
def read_avro_varint_go : List Nat → Nat → Nat → Nat → Option (Int × Nat)
  | [], _, _, _ => none
  | byte :: rest, n, shift, bytes_read =>
    if byte &&& 0x80 ≠ 0 then
      read_avro_varint_go rest (n ||| ((byte &&& 0x7F) <<< shift)) (shift + 7)
        (bytes_read + 1)
    else
      some (Int.xor (Int.ofNat ((n ||| (byte <<< shift)) >>> 1))
              (-(Int.ofNat ((n ||| (byte <<< shift)) &&& 1))),
            bytes_read + 1)

/-- `read_avro_varint` of `examples/test_persist_avro_thingworx.py` (lines
167–183): `none` models the raised `ValueError ("Incomplete varint")`. -/
def read_avro_varint (data : List Nat) : Option (Int × Nat) :=
  read_avro_varint_go data 0 0 0

/-- The zigzag decoding `(n >> 1) ^ -(n & 1)` (Python semantics: the second
operand is `0` or `-1`, and xor with `-1` is two's-complement negation-minus-
one, which `Int.xor` implements). -/
def zigzagDecode (n : Nat) : Int :=
  Int.xor (Int.ofNat (n >>> 1)) (-(Int.ofNat (n &&& 1)))

/-- The unsigned little-endian base-128 value of a byte list starting at bit
position `shift`: low seven bits of each byte, or-ed at increasing shifts. -/
def varNat : Nat → List Nat → Nat
  | _, [] => 0
  | shift, x :: r => ((x &&& 0x7F) <<< shift) ||| varNat (shift + 7) r

/-! ## Concrete values used by the scenario theorems -/

/-- A buffer is made of bytes. -/
abbrev Bytes (b : List Nat) : Prop := ∀ c ∈ b, c < 256

/-- The credential string `"test-key"` as UTF-8 bytes. -/
def testKey : List Nat := [116, 101, 115, 116, 45, 107, 101, 121]

/-- The auth message that `build_auth 12345 testKey` constructs. -/
def authMsg : TwxMessage := ⟨.Auth, 0, 12345, [], some (.string testKey)⟩

/-! # Theorems -/

/-! ## Fixed-width field lemmas -/

theorem natToBytes_length (w n : Nat) : (natToBytes w n).length = w := by
  induction w generalizing n with
  | zero => rfl
  | succ w ih => simp [natToBytes, ih]

theorem bytesToNat_snoc (l : List Nat) (x : Nat) :
    bytesToNat (l ++ [x]) = bytesToNat l * 256 + x := by
  simp [bytesToNat, List.foldl_append]

theorem bytesToNat_natToBytes {w n : Nat} (h : n < 256 ^ w) :
    bytesToNat (natToBytes w n) = n := by
  induction w generalizing n with
  | zero =>
    simp only [pow_zero, Nat.lt_one_iff] at h
    simp [natToBytes, bytesToNat, h]
  | succ w ih =>
    have hdiv : n / 256 < 256 ^ w := by
      rw [Nat.div_lt_iff_lt_mul (by norm_num)]
      calc n < 256 ^ (w + 1) := h
        _ = 256 ^ w * 256 := by ring
    rw [natToBytes, bytesToNat_snoc, ih hdiv]
    omega

theorem natToBytes_bytesToNat {l : List Nat} (h : ∀ b ∈ l, b < 256) :
    natToBytes l.length (bytesToNat l) = l := by
  induction l using List.reverseRecOn with
  | nil => rfl
  | append_singleton l x ih =>
    have hx : x < 256 := h x (by simp)
    have hl : ∀ b ∈ l, b < 256 := fun b hb => h b (by simp [hb])
    rw [bytesToNat_snoc]
    simp only [List.length_append, List.length_singleton, natToBytes]
    have h1 : (bytesToNat l * 256 + x) / 256 = bytesToNat l := by omega
    have h2 : (bytesToNat l * 256 + x) % 256 = x := by omega
    rw [h1, h2, ih hl]

theorem bytesToNat_lt {l : List Nat} (h : ∀ b ∈ l, b < 256) :
    bytesToNat l < 256 ^ l.length := by
  induction l using List.reverseRecOn with
  | nil => simp [bytesToNat]
  | append_singleton l x ih =>
    have hx : x < 256 := h x (by simp)
    have hl : ∀ b ∈ l, b < 256 := fun b hb => h b (by simp [hb])
    have := ih hl
    rw [bytesToNat_snoc]
    simp only [List.length_append, List.length_singleton, pow_succ]
    nlinarith

theorem mem_natToBytes {w n c : Nat} (h : c ∈ natToBytes w n) : c < 256 := by
  induction w generalizing n with
  | zero => simp [natToBytes] at h
  | succ w ih =>
    simp only [natToBytes, List.mem_append, List.mem_singleton] at h
    rcases h with h | h
    · exact ih h
    · omega

/-! ## Reader lemmas -/

theorem readN_sound {k : Nat} {b t r : List Nat}
    (h : readN k b = .ok (t, r)) :
    b = t ++ r ∧ t.length = k := by
  unfold readN at h
  split at h
  · simp only [Except.ok.injEq, Prod.mk.injEq] at h
    obtain ⟨ht, hr⟩ := h
    subst ht; subst hr
    exact ⟨(List.take_append_drop k b).symm, List.length_take_of_le (by assumption)⟩
  · exact absurd h (by simp)

theorem readN_append {k : Nat} (x r : List Nat)
    (h : x.length = k) : readN k (x ++ r) = .ok (x, r) := by
  subst h
  simp [readN, List.take_left, List.drop_left]

theorem readN_short (k : Nat) (b : List Nat) (h : b.length < k) :
    readN k b = .error .TruncatedInput := by
  simp [readN, Nat.not_le.mpr h]

theorem readFix_sound {w n : Nat} {b r : List Nat}
    (hb : Bytes b) (h : readFix w b = .ok (n, r)) :
    b = natToBytes w n ++ r ∧ n < 256 ^ w := by
  unfold readFix at h
  cases hN : readN w b with
  | error e => rw [hN] at h; exact absurd h (by simp)
  | ok p =>
    obtain ⟨bs, rest⟩ := p
    rw [hN] at h
    simp only [Except.ok.injEq, Prod.mk.injEq] at h
    obtain ⟨hn, hr⟩ := h
    subst hn; subst hr
    obtain ⟨hsplit, hlen⟩ := readN_sound hN
    have hbs : ∀ c ∈ bs, c < 256 := fun c hc =>
      hb c (hsplit ▸ List.mem_append_left _ hc)
    constructor
    · rw [hsplit]
      congr 1
      rw [← hlen, natToBytes_bytesToNat hbs]
    · rw [← hlen]
      exact bytesToNat_lt hbs

theorem readFix_encode {w n : Nat} (r : List Nat) (h : n < 256 ^ w) :
    readFix w (natToBytes w n ++ r) = .ok (n, r) := by
  rw [readFix, readN_append _ r (natToBytes_length w n)]
  simp [bytesToNat_natToBytes h]

theorem readFix_short (w : Nat) (b : List Nat) (h : b.length < w) :
    readFix w b = .error .TruncatedInput := by
  rw [readFix, readN_short _ _ h]

theorem Bytes_append {x y : List Nat} :
    Bytes (x ++ y) ↔ Bytes x ∧ Bytes y := by
  constructor
  · intro h
    exact ⟨fun c hc => h c (List.mem_append_left _ hc),
           fun c hc => h c (List.mem_append_right _ hc)⟩
  · rintro ⟨hx, hy⟩ c hc
    rcases List.mem_append.mp hc with h | h
    exacts [hx c h, hy c h]

theorem Bytes_cons {x : Nat} {y : List Nat} :
    Bytes (x :: y) ↔ x < 256 ∧ Bytes y := by
  constructor
  · intro h
    exact ⟨h x (by simp), fun c hc => h c (by simp [hc])⟩
  · rintro ⟨hx, hy⟩ c hc
    rcases List.mem_cons.mp hc with h | h
    · omega
    · exact hy c h

/-! ## Tag lemmas -/

theorem baseOfTag_tagOfBase (k : BaseType) : baseOfTag (tagOfBase k) = some k := by
  cases k <;> rfl

theorem tagOfBase_of_baseOfTag {t : Nat} {k : BaseType}
    (h : baseOfTag t = some k) : tagOfBase k = t := by
  unfold baseOfTag at h
  split at h
  all_goals first
    | (injection h with h; subst h; rfl)
    | exact absurd h (by simp)

/-! ## Decoder soundness: every successful decode is the canonical
re-encoding of a well-formed value -/

theorem decodeP_zero (b : List Nat) :
    decodeP 0 b = .error .TruncatedInput := rfl

theorem decodeP_succ (f : Nat) (b : List Nat) :
    decodeP (f + 1) b = decodeStep (decodeP f) b := rfl

theorem decodeCol_sound {b : List Nat} {c : List Nat × BaseType}
    {rest : List Nat} (hb : Bytes b) (h : decodeCol b = .ok (c, rest)) :
    colOK c = true ∧ b = encodeCol c ++ rest := by
  unfold decodeCol at h
  cases hf : readFix 4 b with
  | error e => simp [hf] at h
  | ok p =>
    obtain ⟨len, b1⟩ := p
    simp only [hf] at h
    obtain ⟨hb_eq, _⟩ := readFix_sound hb hf
    have hb1 : Bytes b1 := (Bytes_append.mp (hb_eq ▸ hb)).2
    by_cases hcap : len ≤ maxNameBytes
    · rw [if_pos hcap] at h
      cases hN : readN len b1 with
      | error e => simp [hN] at h
      | ok q =>
        obtain ⟨name, b2⟩ := q
        simp only [hN] at h
        obtain ⟨hb1_eq, hname_len⟩ := readN_sound hN
        cases b2 with
        | nil => simp at h
        | cons t b3 =>
          cases hk : baseOfTag t with
          | none => simp [hk] at h
          | some k =>
            simp only [hk] at h
            simp only [Except.ok.injEq, Prod.mk.injEq] at h
            obtain ⟨hc, hrest⟩ := h
            subst hc; subst hrest
            have hnb : Bytes name ∧ Bytes (t :: b3) := Bytes_append.mp (hb1_eq ▸ hb1)
            refine ⟨?_, ?_⟩
            · simp only [colOK, Bool.and_eq_true, decide_eq_true_eq, bytesOK,
                List.all_eq_true]
              exact ⟨hname_len ▸ hcap, fun c hc => by
                simpa using hnb.1 c hc⟩
            · rw [hb_eq, hb1_eq, encodeCol]
              simp only [hname_len, tagOfBase_of_baseOfTag hk]
              simp [List.append_assoc]
    · rw [if_neg hcap] at h
      simp at h

theorem decodeColsN_sound {n : Nat} {b : List Nat}
    {cols : List (List Nat × BaseType)} {rest : List Nat}
    (hb : Bytes b) (h : decodeColsN n b = .ok (cols, rest)) :
    colsOK cols = true ∧ cols.length = n ∧ b = encodeCols cols ++ rest := by
  induction n generalizing b cols with
  | zero =>
    simp only [decodeColsN, Except.ok.injEq, Prod.mk.injEq] at h
    obtain ⟨hc, hr⟩ := h
    subst hc; subst hr
    simp [colsOK, encodeCols]
  | succ n ih =>
    unfold decodeColsN at h
    cases hc : decodeCol b with
    | error e => simp [hc] at h
    | ok p =>
      obtain ⟨c, b'⟩ := p
      simp only [hc] at h
      cases hcs : decodeColsN n b' with
      | error e => simp [hcs] at h
      | ok q =>
        obtain ⟨cs, b''⟩ := q
        simp only [hcs] at h
        simp only [Except.ok.injEq, Prod.mk.injEq] at h
        obtain ⟨hcols, hrest⟩ := h
        subst hcols; subst hrest
        obtain ⟨hok, hbeq⟩ := decodeCol_sound hb hc
        have hb' : Bytes b' := (Bytes_append.mp (hbeq ▸ hb)).2
        obtain ⟨hoks, hlen, hbeq'⟩ := ih hb' hcs
        refine ⟨?_, by simp [hlen], ?_⟩
        · simp only [colsOK, List.all_cons, Bool.and_eq_true]
          exact ⟨hok, hoks⟩
        · rw [hbeq, hbeq', encodeCols, List.append_assoc]

theorem decodeItems_sound {dec : List Nat → Except TwErr (TwPrim × List Nat)}
    (hdec : ∀ {b v rest}, Bytes b → dec b = .ok (v, rest) →
      WFb v = true ∧ b = encode v ++ rest)
    {n : Nat} {b : List Nat} {vs : List TwPrim} {rest : List Nat}
    (hb : Bytes b) (h : decodeItems dec n b = .ok (vs, rest)) :
    WFbList vs = true ∧ vs.length = n ∧ b = encodeList vs ++ rest := by
  induction n generalizing b vs with
  | zero =>
    simp only [decodeItems, Except.ok.injEq, Prod.mk.injEq] at h
    obtain ⟨hv, hr⟩ := h
    subst hv; subst hr
    simp [WFbList, encodeList]
  | succ n ih =>
    unfold decodeItems at h
    cases hd : dec b with
    | error e => simp [hd] at h
    | ok p =>
      obtain ⟨v, b'⟩ := p
      simp only [hd] at h
      cases hds : decodeItems dec n b' with
      | error e => simp [hds] at h
      | ok q =>
        obtain ⟨tl, b''⟩ := q
        simp only [hds] at h
        simp only [Except.ok.injEq, Prod.mk.injEq] at h
        obtain ⟨hv, hr⟩ := h
        subst hv; subst hr
        obtain ⟨hwf, hbeq⟩ := hdec hb hd
        have hb' : Bytes b' := (Bytes_append.mp (hbeq ▸ hb)).2
        obtain ⟨hwfs, hlen, hbeq'⟩ := ih hb' hds
        refine ⟨?_, by simp [hlen], ?_⟩
        · simp only [WFbList, Bool.and_eq_true]
          exact ⟨hwf, hwfs⟩
        · rw [hbeq, hbeq', encodeList, List.append_assoc]

theorem decodeCell_sound {dec : List Nat → Except TwErr (TwPrim × List Nat)}
    (hdec : ∀ {b v rest}, Bytes b → dec b = .ok (v, rest) →
      WFb v = true ∧ b = encode v ++ rest)
    {k : BaseType} {b : List Nat} {v : TwPrim} {rest : List Nat}
    (hb : Bytes b) (h : decodeCell dec k b = .ok (v, rest)) :
    WFb v = true ∧ cellOK k v = true ∧ (encode v).length < 2 ^ 32 ∧
      b = (natToBytes 4 (encode v).length ++ encode v) ++ rest := by
  unfold decodeCell at h
  cases hf : readFix 4 b with
  | error e => simp [hf] at h
  | ok p =>
    obtain ⟨len, b1⟩ := p
    simp only [hf] at h
    obtain ⟨hb_eq, hlen_lt⟩ := readFix_sound hb hf
    have hb1 : Bytes b1 := (Bytes_append.mp (hb_eq ▸ hb)).2
    cases hN : readN len b1 with
    | error e => simp [hN] at h
    | ok q =>
      obtain ⟨cell, b2⟩ := q
      simp only [hN] at h
      obtain ⟨hb1_eq, hcell_len⟩ := readN_sound hN
      have hcellB : Bytes cell := (Bytes_append.mp (hb1_eq ▸ hb1)).1
      cases hd : dec cell with
      | error e => simp [hd] at h
      | ok r0 =>
        obtain ⟨v0, rest0⟩ := r0
        simp only [hd] at h
        by_cases hr0 : rest0 = ([] : List Nat)
        · rw [if_pos hr0] at h
          by_cases hck : cellOK k v0 = true
          · rw [if_pos hck] at h
            simp only [Except.ok.injEq, Prod.mk.injEq] at h
            obtain ⟨hv, hr⟩ := h
            subst hv; subst hr
            obtain ⟨hwf, hcell_eq⟩ := hdec hcellB hd
            rw [hr0, List.append_nil] at hcell_eq
            subst hcell_eq
            refine ⟨hwf, hck, ?_, ?_⟩
            · calc (encode v0).length = len := hcell_len
                _ < 256 ^ 4 := hlen_lt
                _ = 2 ^ 32 := by norm_num
            · rw [hb_eq, hb1_eq, hcell_len, List.append_assoc]
          · simp [if_neg hck] at h
        · simp [if_neg hr0] at h

theorem decodeRow_sound {dec : List Nat → Except TwErr (TwPrim × List Nat)}
    (hdec : ∀ {b v rest}, Bytes b → dec b = .ok (v, rest) →
      WFb v = true ∧ b = encode v ++ rest)
    {ks : List BaseType} {b : List Nat} {r : List TwPrim} {rest : List Nat}
    (hb : Bytes b) (h : decodeRow dec ks b = .ok (r, rest)) :
    WFbRow ks r = true ∧ b = encodeCells r ++ rest := by
  induction ks generalizing b r with
  | nil =>
    simp only [decodeRow, Except.ok.injEq, Prod.mk.injEq] at h
    obtain ⟨hr, hrest⟩ := h
    subst hr; subst hrest
    simp [WFbRow, encodeCells]
  | cons k ks ih =>
    unfold decodeRow at h
    cases hc : decodeCell dec k b with
    | error e => simp [hc] at h
    | ok p =>
      obtain ⟨v, b'⟩ := p
      simp only [hc] at h
      cases hrow : decodeRow dec ks b' with
      | error e => simp [hrow] at h
      | ok q =>
        obtain ⟨tl, b''⟩ := q
        simp only [hrow] at h
        simp only [Except.ok.injEq, Prod.mk.injEq] at h
        obtain ⟨hr, hrest⟩ := h
        subst hr; subst hrest
        obtain ⟨hwf, hck, hlen, hbeq⟩ := decodeCell_sound hdec hb hc
        have hb' : Bytes b' := (Bytes_append.mp (hbeq ▸ hb)).2
        obtain ⟨hwfr, hbeq'⟩ := ih hb' hrow
        refine ⟨?_, ?_⟩
        · simp only [WFbRow, Bool.and_eq_true, decide_eq_true_eq]
          exact ⟨⟨⟨hck, hwf⟩, hlen⟩, hwfr⟩
        · rw [hbeq, hbeq', encodeCells]
          simp [List.append_assoc]

theorem decodeRowsN_sound {dec : List Nat → Except TwErr (TwPrim × List Nat)}
    (hdec : ∀ {b v rest}, Bytes b → dec b = .ok (v, rest) →
      WFb v = true ∧ b = encode v ++ rest)
    {ks : List BaseType} {n : Nat} {b : List Nat} {rows : List (List TwPrim)}
    {rest : List Nat}
    (hb : Bytes b) (h : decodeRowsN dec ks n b = .ok (rows, rest)) :
    WFbRows ks rows = true ∧ rows.length = n ∧ b = encodeRows rows ++ rest := by
  induction n generalizing b rows with
  | zero =>
    simp only [decodeRowsN, Except.ok.injEq, Prod.mk.injEq] at h
    obtain ⟨hr, hrest⟩ := h
    subst hr; subst hrest
    simp [WFbRows, encodeRows]
  | succ n ih =>
    unfold decodeRowsN at h
    cases hrow : decodeRow dec ks b with
    | error e => simp [hrow] at h
    | ok p =>
      obtain ⟨r, b'⟩ := p
      simp only [hrow] at h
      cases hrows : decodeRowsN dec ks n b' with
      | error e => simp [hrows] at h
      | ok q =>
        obtain ⟨tl, b''⟩ := q
        simp only [hrows] at h
        simp only [Except.ok.injEq, Prod.mk.injEq] at h
        obtain ⟨hr, hrest⟩ := h
        subst hr; subst hrest
        obtain ⟨hwfr, hbeq⟩ := decodeRow_sound hdec hb hrow
        have hb' : Bytes b' := (Bytes_append.mp (hbeq ▸ hb)).2
        obtain ⟨hwfs, hlen, hbeq'⟩ := ih hb' hrows
        refine ⟨?_, by simp [hlen], ?_⟩
        · simp only [WFbRows, Bool.and_eq_true]
          exact ⟨hwfr, hwfs⟩
        · rw [hbeq, hbeq', encodeRows, List.append_assoc]

theorem decodePayload_sound {dec : List Nat → Except TwErr (TwPrim × List Nat)}
    (hdec : ∀ {b v rest}, Bytes b → dec b = .ok (v, rest) →
      WFb v = true ∧ b = encode v ++ rest)
    {k : BaseType} {b0 : List Nat} {v : TwPrim} {rest : List Nat}
    (hb : Bytes b0) (h : decodePayload dec k b0 = .ok (v, rest)) :
    WFb v = true ∧ tagOfBase k :: b0 = encode v ++ rest := by
  cases k with
  | Nothing =>
    simp only [decodePayload, Except.ok.injEq, Prod.mk.injEq] at h
    obtain ⟨hv, hr⟩ := h
    subst hv; subst hr
    exact ⟨rfl, rfl⟩
  | Boolean =>
    cases b0 with
    | nil => simp [decodePayload] at h
    | cons x b1 =>
      simp only [decodePayload] at h
      by_cases hx0 : x = 0
      · rw [if_pos hx0] at h
        simp only [Except.ok.injEq, Prod.mk.injEq] at h
        obtain ⟨hv, hr⟩ := h
        subst hv; subst hr; subst hx0
        exact ⟨rfl, rfl⟩
      · rw [if_neg hx0] at h
        by_cases hx1 : x = 1
        · rw [if_pos hx1] at h
          simp only [Except.ok.injEq, Prod.mk.injEq] at h
          obtain ⟨hv, hr⟩ := h
          subst hv; subst hr; subst hx1
          exact ⟨rfl, rfl⟩
        · simp [if_neg hx1] at h
  | Integer =>
    unfold decodePayload at h
    cases hN : readN 8 b0 with
    | error e => simp [hN] at h
    | ok q =>
      obtain ⟨bs, r⟩ := q
      simp only [hN, Except.ok.injEq, Prod.mk.injEq] at h
      obtain ⟨hv, hr⟩ := h
      subst hv; subst hr
      obtain ⟨hsplit, hlen⟩ := readN_sound hN
      have hbs : ∀ c ∈ bs, c < 256 := fun c hc =>
        hb c (hsplit ▸ List.mem_append_left _ hc)
      constructor
      · simp only [WFb, decide_eq_true_eq]
        have := bytesToNat_lt hbs
        rw [hlen] at this
        calc bytesToNat bs < 256 ^ 8 := this
          _ = 2 ^ 64 := by norm_num
      · rw [hsplit, encode]
        congr 2
        rw [← hlen, natToBytes_bytesToNat hbs]
  | Number =>
    unfold decodePayload at h
    cases hN : readN 8 b0 with
    | error e => simp [hN] at h
    | ok q =>
      obtain ⟨bs, r⟩ := q
      simp only [hN, Except.ok.injEq, Prod.mk.injEq] at h
      obtain ⟨hv, hr⟩ := h
      subst hv; subst hr
      obtain ⟨hsplit, hlen⟩ := readN_sound hN
      have hbs : ∀ c ∈ bs, c < 256 := fun c hc =>
        hb c (hsplit ▸ List.mem_append_left _ hc)
      constructor
      · simp only [WFb, decide_eq_true_eq]
        have := bytesToNat_lt hbs
        rw [hlen] at this
        calc bytesToNat bs < 256 ^ 8 := this
          _ = 2 ^ 64 := by norm_num
      · rw [hsplit, encode]
        congr 2
        rw [← hlen, natToBytes_bytesToNat hbs]
  | DateTime =>
    unfold decodePayload at h
    cases hN : readN 8 b0 with
    | error e => simp [hN] at h
    | ok q =>
      obtain ⟨bs, r⟩ := q
      simp only [hN, Except.ok.injEq, Prod.mk.injEq] at h
      obtain ⟨hv, hr⟩ := h
      subst hv; subst hr
      obtain ⟨hsplit, hlen⟩ := readN_sound hN
      have hbs : ∀ c ∈ bs, c < 256 := fun c hc =>
        hb c (hsplit ▸ List.mem_append_left _ hc)
      constructor
      · simp only [WFb, decide_eq_true_eq]
        have := bytesToNat_lt hbs
        rw [hlen] at this
        calc bytesToNat bs < 256 ^ 8 := this
          _ = 2 ^ 64 := by norm_num
      · rw [hsplit, encode]
        congr 2
        rw [← hlen, natToBytes_bytesToNat hbs]
  | String =>
    unfold decodePayload at h
    cases hf : readFix 4 b0 with
    | error e => simp [hf] at h
    | ok p =>
      obtain ⟨len, b1⟩ := p
      simp only [hf] at h
      obtain ⟨hb_eq, _⟩ := readFix_sound hb hf
      have hb1 : Bytes b1 := (Bytes_append.mp (hb_eq ▸ hb)).2
      by_cases hcap : len ≤ maxFieldBytes
      · rw [if_pos hcap] at h
        cases hN : readN len b1 with
        | error e => simp [hN] at h
        | ok q =>
          obtain ⟨s, r⟩ := q
          simp only [hN, Except.ok.injEq, Prod.mk.injEq] at h
          obtain ⟨hv, hr⟩ := h
          subst hv; subst hr
          obtain ⟨hsplit, hlen⟩ := readN_sound hN
          constructor
          · simp only [WFb, Bool.and_eq_true, decide_eq_true_eq, bytesOK,
              List.all_eq_true]
            refine ⟨hlen ▸ hcap, fun c hc => ?_⟩
            simpa using (Bytes_append.mp (hsplit ▸ hb1)).1 c hc
          · rw [hb_eq, hsplit, encode, hlen]
            simp [tagOfBase, List.append_assoc]
      · simp [if_neg hcap] at h
  | Blob =>
    unfold decodePayload at h
    cases hf : readFix 4 b0 with
    | error e => simp [hf] at h
    | ok p =>
      obtain ⟨len, b1⟩ := p
      simp only [hf] at h
      obtain ⟨hb_eq, _⟩ := readFix_sound hb hf
      have hb1 : Bytes b1 := (Bytes_append.mp (hb_eq ▸ hb)).2
      by_cases hcap : len ≤ maxFieldBytes
      · rw [if_pos hcap] at h
        cases hN : readN len b1 with
        | error e => simp [hN] at h
        | ok q =>
          obtain ⟨s, r⟩ := q
          simp only [hN, Except.ok.injEq, Prod.mk.injEq] at h
          obtain ⟨hv, hr⟩ := h
          subst hv; subst hr
          obtain ⟨hsplit, hlen⟩ := readN_sound hN
          constructor
          · simp only [WFb, Bool.and_eq_true, decide_eq_true_eq, bytesOK,
              List.all_eq_true]
            refine ⟨hlen ▸ hcap, fun c hc => ?_⟩
            simpa using (Bytes_append.mp (hsplit ▸ hb1)).1 c hc
          · rw [hb_eq, hsplit, encode, hlen]
            simp [tagOfBase, List.append_assoc]
      · simp [if_neg hcap] at h
  | VariantList =>
    unfold decodePayload at h
    cases hf : readFix 4 b0 with
    | error e => simp [hf] at h
    | ok p =>
      obtain ⟨n, b1⟩ := p
      simp only [hf] at h
      obtain ⟨hb_eq, _⟩ := readFix_sound hb hf
      have hb1 : Bytes b1 := (Bytes_append.mp (hb_eq ▸ hb)).2
      by_cases hcap : n ≤ maxListItems
      · rw [if_pos hcap] at h
        cases hI : decodeItems dec n b1 with
        | error e => simp [hI] at h
        | ok q =>
          obtain ⟨vs, r⟩ := q
          simp only [hI, Except.ok.injEq, Prod.mk.injEq] at h
          obtain ⟨hv, hr⟩ := h
          subst hv; subst hr
          obtain ⟨hwfl, hlen, hsplit⟩ := decodeItems_sound hdec hb1 hI
          constructor
          · simp only [WFb, Bool.and_eq_true, decide_eq_true_eq]
            exact ⟨hlen ▸ hcap, hwfl⟩
          · rw [hb_eq, hsplit, encode, hlen]
            simp [tagOfBase, List.append_assoc]
      · simp [if_neg hcap] at h
  | Table =>
    unfold decodePayload at h
    cases hf : readFix 4 b0 with
    | error e => simp [hf] at h
    | ok p =>
      obtain ⟨nc, b1⟩ := p
      simp only [hf] at h
      obtain ⟨hb_eq, _⟩ := readFix_sound hb hf
      have hb1 : Bytes b1 := (Bytes_append.mp (hb_eq ▸ hb)).2
      by_cases hcap : nc ≤ maxColumns
      · rw [if_pos hcap] at h
        cases hC : decodeColsN nc b1 with
        | error e => simp [hC] at h
        | ok q =>
          obtain ⟨cols, b2⟩ := q
          simp only [hC] at h
          obtain ⟨hok, hclen, hsplitC⟩ := decodeColsN_sound hb1 hC
          have hb2 : Bytes b2 := (Bytes_append.mp (hsplitC ▸ hb1)).2
          by_cases hnd : nodupNames (cols.map Prod.fst) = true
          · rw [if_pos hnd] at h
            cases hf2 : readFix 4 b2 with
            | error e => simp [hf2] at h
            | ok p2 =>
              obtain ⟨nr, b3⟩ := p2
              simp only [hf2] at h
              obtain ⟨hb2_eq, _⟩ := readFix_sound hb2 hf2
              have hb3 : Bytes b3 := (Bytes_append.mp (hb2_eq ▸ hb2)).2
              by_cases hcap2 : nr ≤ maxRows
              · rw [if_pos hcap2] at h
                cases hR : decodeRowsN dec (cols.map Prod.snd) nr b3 with
                | error e => simp [hR] at h
                | ok q2 =>
                  obtain ⟨rows, b4⟩ := q2
                  simp only [hR, Except.ok.injEq, Prod.mk.injEq] at h
                  obtain ⟨hv, hr⟩ := h
                  subst hv; subst hr
                  obtain ⟨hwfr, hrlen, hsplitR⟩ := decodeRowsN_sound hdec hb3 hR
                  constructor
                  · simp only [WFb, Bool.and_eq_true, decide_eq_true_eq]
                    exact ⟨⟨⟨⟨hclen ▸ hcap, hok⟩, hnd⟩, hrlen ▸ hcap2⟩, hwfr⟩
                  · rw [hb_eq, hsplitC, hb2_eq, hsplitR, encode, hclen, hrlen]
                    simp [tagOfBase, List.append_assoc]
              · simp [if_neg hcap2] at h
          · simp [if_neg hnd] at h
      · simp [if_neg hcap] at h

theorem decodeStep_sound {dec : List Nat → Except TwErr (TwPrim × List Nat)}
    (hdec : ∀ {b v rest}, Bytes b → dec b = .ok (v, rest) →
      WFb v = true ∧ b = encode v ++ rest)
    {b : List Nat} {v : TwPrim} {rest : List Nat}
    (hb : Bytes b) (h : decodeStep dec b = .ok (v, rest)) :
    WFb v = true ∧ b = encode v ++ rest := by
  unfold decodeStep at h
  cases b with
  | nil => simp at h
  | cons t b0 =>
    cases hk : baseOfTag t with
    | none => simp [hk] at h
    | some k =>
      simp only [hk] at h
      obtain ⟨hwf, heq⟩ :=
        decodePayload_sound hdec (Bytes_cons.mp hb).2 h
      exact ⟨hwf, by rw [← tagOfBase_of_baseOfTag hk]; exact heq⟩

theorem decodeP_sound :
    ∀ (fuel : Nat) {b : List Nat} {v : TwPrim} {rest : List Nat},
      Bytes b → decodeP fuel b = .ok (v, rest) →
      WFb v = true ∧ b = encode v ++ rest := by
  intro fuel
  induction fuel with
  | zero => intro b v rest _ h; rw [decodeP_zero] at h; exact absurd h (by simp)
  | succ f ih =>
    intro b v rest hb h
    rw [decodeP_succ] at h
    exact decodeStep_sound (fun {b' v' r'} hb' h' => ih hb' h') hb h

/-! ## Encode/decode round trip -/

theorem len_le_encodeList {v : TwPrim} {vs : List TwPrim} (h : v ∈ vs) :
    (encode v).length ≤ (encodeList vs).length := by
  induction vs with
  | nil => simp at h
  | cons x tl ih =>
    rcases List.mem_cons.mp h with h | h
    · subst h; simp [encodeList]
    · have := ih h
      simp only [encodeList, List.length_append]
      omega

theorem len_le_encodeCells {v : TwPrim} {r : List TwPrim} (h : v ∈ r) :
    (encode v).length ≤ (encodeCells r).length := by
  induction r with
  | nil => simp at h
  | cons x tl ih =>
    rcases List.mem_cons.mp h with h | h
    · subst h
      simp only [encodeCells, List.length_append]
      omega
    · have := ih h
      simp only [encodeCells, List.length_append]
      omega

theorem cells_le_encodeRows {r : List TwPrim} {rows : List (List TwPrim)}
    (h : r ∈ rows) : (encodeCells r).length ≤ (encodeRows rows).length := by
  induction rows with
  | nil => simp at h
  | cons x tl ih =>
    rcases List.mem_cons.mp h with h | h
    · subst h; simp [encodeRows]
    · have := ih h
      simp only [encodeRows, List.length_append]
      omega

theorem WFbList_mem {vs : List TwPrim} (h : WFbList vs = true) :
    ∀ v ∈ vs, WFb v = true := by
  induction vs with
  | nil => simp
  | cons x tl ih =>
    simp only [WFbList, Bool.and_eq_true] at h
    intro v hv
    rcases List.mem_cons.mp hv with hv | hv
    · subst hv; exact h.1
    · exact ih h.2 v hv

theorem WFbRows_mem {ks : List BaseType} {rows : List (List TwPrim)}
    (h : WFbRows ks rows = true) : ∀ r ∈ rows, WFbRow ks r = true := by
  induction rows with
  | nil => simp
  | cons x tl ih =>
    simp only [WFbRows, Bool.and_eq_true] at h
    intro r hr
    rcases List.mem_cons.mp hr with hr | hr
    · subst hr; exact h.1
    · exact ih h.2 r hr

theorem WFbRow_mem {ks : List BaseType} {r : List TwPrim}
    (h : WFbRow ks r = true) : ∀ v ∈ r, WFb v = true := by
  induction r generalizing ks with
  | nil => simp
  | cons x tl ih =>
    cases ks with
    | nil => simp [WFbRow] at h
    | cons k ktl =>
      simp only [WFbRow, Bool.and_eq_true] at h
      intro v hv
      rcases List.mem_cons.mp hv with hv | hv
      · subst hv; exact h.1.1.2
      · exact ih h.2 v hv

theorem decodeCol_encode {c : List Nat × BaseType} (hok : colOK c = true)
    (r : List Nat) : decodeCol (encodeCol c ++ r) = .ok (c, r) := by
  obtain ⟨name, k⟩ := c
  simp only [colOK, Bool.and_eq_true, decide_eq_true_eq] at hok
  obtain ⟨hlen, _⟩ := hok
  have hlt : name.length < 256 ^ 4 := by
    have : maxNameBytes < 256 ^ 4 := by norm_num [maxNameBytes]
    omega
  unfold decodeCol
  simp only [encodeCol, List.append_assoc, List.cons_append, List.nil_append]
  have hA := readFix_encode (name ++ tagOfBase k :: r) hlt
  simp only [hA]
  rw [if_pos hlen]
  have hB := readN_append name (tagOfBase k :: r) rfl
  simp only [hB]
  simp [baseOfTag_tagOfBase]

theorem decodeColsN_encode {cols : List (List Nat × BaseType)}
    (hok : colsOK cols = true) (r : List Nat) :
    decodeColsN cols.length (encodeCols cols ++ r) = .ok (cols, r) := by
  induction cols with
  | nil => simp [decodeColsN, encodeCols]
  | cons c tl ih =>
    simp only [colsOK, List.all_cons, Bool.and_eq_true] at hok
    simp only [List.length_cons, decodeColsN, encodeCols, List.append_assoc]
    have hA := decodeCol_encode hok.1 (encodeCols tl ++ r)
    simp only [hA]
    have hB := ih hok.2
    simp only [hB]

theorem decodeItems_encode (dec : List Nat → Except TwErr (TwPrim × List Nat))
    (P : TwPrim → Prop) {vs : List TwPrim}
    (hdec : ∀ v ∈ vs, ∀ r, dec (encode v ++ r) = .ok (v, r) ∨
      (dec (encode v ++ r) = .error .TruncatedInput ∧ P v)) (r : List Nat) :
    decodeItems dec vs.length (encodeList vs ++ r) = .ok (vs, r) ∨
      (decodeItems dec vs.length (encodeList vs ++ r) = .error .TruncatedInput ∧
        ∃ v ∈ vs, P v) := by
  induction vs with
  | nil => left; simp [decodeItems, encodeList]
  | cons v tl ih =>
    simp only [List.length_cons, decodeItems, encodeList, List.append_assoc]
    rcases hdec v (List.mem_cons_self v tl) (encodeList tl ++ r) with hd | ⟨hd, hP⟩
    · simp only [hd]
      rcases ih (fun x hx rr => hdec x (List.mem_cons_of_mem _ hx) rr) with hi | ⟨hi, x, hx, hPx⟩
      · left; simp only [hi]
      · right
        refine ⟨by simp only [hi], x, List.mem_cons_of_mem _ hx, hPx⟩
    · right
      exact ⟨by simp only [hd], v, List.mem_cons_self v tl, hP⟩

theorem decodeCell_encode (dec : List Nat → Except TwErr (TwPrim × List Nat))
    (P : TwPrim → Prop) {k : BaseType} {v : TwPrim}
    (hck : cellOK k v = true) (hlen : (encode v).length < 2 ^ 32)
    (hdec : ∀ r, dec (encode v ++ r) = .ok (v, r) ∨
      (dec (encode v ++ r) = .error .TruncatedInput ∧ P v)) (r : List Nat) :
    decodeCell dec k (natToBytes 4 (encode v).length ++ encode v ++ r) = .ok (v, r) ∨
      (decodeCell dec k (natToBytes 4 (encode v).length ++ encode v ++ r) =
        .error .TruncatedInput ∧ P v) := by
  have hlt : (encode v).length < 256 ^ 4 := by
    have : (256 : Nat) ^ 4 = 2 ^ 32 := by norm_num
    omega
  unfold decodeCell
  simp only [List.append_assoc]
  have hA := readFix_encode (encode v ++ r) hlt
  simp only [hA]
  have hB := readN_append (encode v) r rfl
  simp only [hB]
  rcases hdec [] with hd | ⟨hd, hP⟩
  · rw [List.append_nil] at hd
    simp only [hd]
    left
    simp [hck]
  · rw [List.append_nil] at hd
    right
    refine ⟨?_, hP⟩
    simp only [hd]

theorem decodeRow_encode (dec : List Nat → Except TwErr (TwPrim × List Nat))
    (P : TwPrim → Prop) {ks : List BaseType} {r : List TwPrim}
    (hwf : WFbRow ks r = true)
    (hdec : ∀ v ∈ r, ∀ rr, dec (encode v ++ rr) = .ok (v, rr) ∨
      (dec (encode v ++ rr) = .error .TruncatedInput ∧ P v)) (rest : List Nat) :
    decodeRow dec ks (encodeCells r ++ rest) = .ok (r, rest) ∨
      (decodeRow dec ks (encodeCells r ++ rest) = .error .TruncatedInput ∧
        ∃ v ∈ r, P v) := by
  induction r generalizing ks with
  | nil =>
    cases ks with
    | nil => left; simp [decodeRow, encodeCells]
    | cons k ktl => simp [WFbRow] at hwf
  | cons v tl ih =>
    cases ks with
    | nil => simp [WFbRow] at hwf
    | cons k ktl =>
      simp only [WFbRow, Bool.and_eq_true, decide_eq_true_eq] at hwf
      obtain ⟨⟨⟨hck, _⟩, hlen⟩, hwftl⟩ := hwf
      simp only [decodeRow, encodeCells, List.append_assoc]
      have hcell := decodeCell_encode dec P hck hlen
        (fun rr => hdec v (List.mem_cons_self v tl) rr)
        (encodeCells tl ++ rest)
      rw [List.append_assoc] at hcell
      rcases hcell with hc | ⟨hc, hP⟩
      · simp only [hc]
        rcases ih hwftl (fun x hx rr => hdec x (List.mem_cons_of_mem _ hx) rr)
          with hi | ⟨hi, x, hx, hPx⟩
        · left; simp only [hi]
        · right
          exact ⟨by simp only [hi], x, List.mem_cons_of_mem _ hx, hPx⟩
      · right
        exact ⟨by simp only [hc], v, List.mem_cons_self v tl, hP⟩

theorem decodeRowsN_encode (dec : List Nat → Except TwErr (TwPrim × List Nat))
    (P : TwPrim → Prop) {ks : List BaseType} {rows : List (List TwPrim)}
    (hwf : WFbRows ks rows = true)
    (hdec : ∀ r ∈ rows, ∀ v ∈ r, ∀ rr, dec (encode v ++ rr) = .ok (v, rr) ∨
      (dec (encode v ++ rr) = .error .TruncatedInput ∧ P v)) (rest : List Nat) :
    decodeRowsN dec ks rows.length (encodeRows rows ++ rest) = .ok (rows, rest) ∨
      (decodeRowsN dec ks rows.length (encodeRows rows ++ rest) =
        .error .TruncatedInput ∧ ∃ r ∈ rows, ∃ v ∈ r, P v) := by
  induction rows with
  | nil => left; simp [decodeRowsN, encodeRows]
  | cons r tl ih =>
    simp only [WFbRows, Bool.and_eq_true] at hwf
    simp only [List.length_cons, decodeRowsN, encodeRows, List.append_assoc]
    have hrow := decodeRow_encode dec P hwf.1
      (fun v hv rr => hdec r (List.mem_cons_self r tl) v hv rr)
      (encodeRows tl ++ rest)
    rcases hrow with hr | ⟨hr, x, hx, hPx⟩
    · simp only [hr]
      rcases ih hwf.2 (fun rr hrr v hv r2 => hdec rr (List.mem_cons_of_mem _ hrr) v hv r2)
        with hi | ⟨hi, r2, hr2, x, hx, hPx⟩
      · left; simp only [hi]
      · right
        exact ⟨by simp only [hi], r2, List.mem_cons_of_mem _ hr2, x, hx, hPx⟩
    · right
      exact ⟨by simp only [hr], r, List.mem_cons_self r tl, x, hx, hPx⟩

theorem decodeP_encode :
    ∀ (fuel : Nat) (v : TwPrim) (rest : List Nat), WFb v = true →
      decodeP fuel (encode v ++ rest) = .ok (v, rest) ∨
      (decodeP fuel (encode v ++ rest) = .error .TruncatedInput ∧
        fuel ≤ (encode v).length) := by
  intro fuel
  induction fuel with
  | zero =>
    intro v rest _
    right
    exact ⟨decodeP_zero _, Nat.zero_le _⟩
  | succ f ih =>
    intro v rest hwf
    rw [decodeP_succ]
    cases v with
    | nothing =>
      left
      simp [encode, decodeStep, baseOfTag, decodePayload]
    | boolean b =>
      left
      cases b <;> simp [encode, decodeStep, baseOfTag, decodePayload]
    | integer n =>
      left
      have h64 : (256 : Nat) ^ 8 = 2 ^ 64 := by norm_num
      simp only [WFb, decide_eq_true_eq] at hwf
      have hn : n < 256 ^ 8 := by omega
      have hA := readN_append (natToBytes 8 n) rest (natToBytes_length 8 n)
      simp [encode, List.append_assoc, decodeStep, baseOfTag, decodePayload, hA,
        bytesToNat_natToBytes hn]
    | number bits =>
      left
      have h64 : (256 : Nat) ^ 8 = 2 ^ 64 := by norm_num
      simp only [WFb, decide_eq_true_eq] at hwf
      have hn : bits < 256 ^ 8 := by omega
      have hA := readN_append (natToBytes 8 bits) rest (natToBytes_length 8 bits)
      simp [encode, List.append_assoc, decodeStep, baseOfTag, decodePayload, hA,
        bytesToNat_natToBytes hn]
    | datetime ms =>
      left
      have h64 : (256 : Nat) ^ 8 = 2 ^ 64 := by norm_num
      simp only [WFb, decide_eq_true_eq] at hwf
      have hn : ms < 256 ^ 8 := by omega
      have hA := readN_append (natToBytes 8 ms) rest (natToBytes_length 8 ms)
      simp [encode, List.append_assoc, decodeStep, baseOfTag, decodePayload, hA,
        bytesToNat_natToBytes hn]
    | string s =>
      left
      simp only [WFb, Bool.and_eq_true, decide_eq_true_eq] at hwf
      obtain ⟨hcap, _⟩ := hwf
      have hlt : s.length < 256 ^ 4 := by
        have : maxFieldBytes < 256 ^ 4 := by norm_num [maxFieldBytes]
        omega
      have hA := readFix_encode (s ++ rest) hlt
      have hB := readN_append s rest rfl
      simp [encode, List.append_assoc, decodeStep, baseOfTag, decodePayload,
        hA, hB, hcap]
    | blob bs =>
      left
      simp only [WFb, Bool.and_eq_true, decide_eq_true_eq] at hwf
      obtain ⟨hcap, _⟩ := hwf
      have hlt : bs.length < 256 ^ 4 := by
        have : maxFieldBytes < 256 ^ 4 := by norm_num [maxFieldBytes]
        omega
      have hA := readFix_encode (bs ++ rest) hlt
      have hB := readN_append bs rest rfl
      simp [encode, List.append_assoc, decodeStep, baseOfTag, decodePayload,
        hA, hB, hcap]
    | variantlist vs =>
      simp only [WFb, Bool.and_eq_true, decide_eq_true_eq] at hwf
      obtain ⟨hcap, hwfl⟩ := hwf
      have hlt : vs.length < 256 ^ 4 := by
        have : maxListItems < 256 ^ 4 := by norm_num [maxListItems]
        omega
      have hA := readFix_encode (encodeList vs ++ rest) hlt
      have hitems := decodeItems_encode (decodeP f)
        (fun x => f ≤ (encode x).length)
        (fun x hx rr => ih x rr (WFbList_mem hwfl x hx)) rest
      rcases hitems with hi | ⟨hi, x, hx, hfx⟩
      · left
        simp [encode, List.append_assoc, decodeStep, baseOfTag, decodePayload,
          hA, hcap, hi]
      · right
        constructor
        · simp [encode, List.append_assoc, decodeStep, baseOfTag, decodePayload,
            hA, hcap, hi]
        · have h1 := len_le_encodeList hx
          simp only [encode, List.length_cons, List.length_append,
            natToBytes_length]
          omega
    | table cols rows =>
      simp only [WFb, Bool.and_eq_true, decide_eq_true_eq] at hwf
      obtain ⟨⟨⟨⟨hcapC, hok⟩, hnd⟩, hcapR⟩, hwfr⟩ := hwf
      have hltC : cols.length < 256 ^ 4 := by
        have : maxColumns < 256 ^ 4 := by norm_num [maxColumns]
        omega
      have hltR : rows.length < 256 ^ 4 := by
        have : maxRows < 256 ^ 4 := by norm_num [maxRows]
        omega
      have hA := readFix_encode
        (encodeCols cols ++ (natToBytes 4 rows.length ++ (encodeRows rows ++ rest)))
        hltC
      have hB := decodeColsN_encode hok
        (natToBytes 4 rows.length ++ (encodeRows rows ++ rest))
      have hC := readFix_encode (encodeRows rows ++ rest) hltR
      have hrows := decodeRowsN_encode (decodeP f)
        (fun x => f ≤ (encode x).length) hwfr
        (fun r hr x hx rr =>
          ih x rr (WFbRow_mem (WFbRows_mem hwfr r hr) x hx)) rest
      rcases hrows with hi | ⟨hi, r, hr, x, hx, hfx⟩
      · left
        simp [encode, List.append_assoc, decodeStep, baseOfTag, decodePayload,
          hA, hB, hC, hcapC, hnd, hcapR, hi]
      · right
        constructor
        · simp [encode, List.append_assoc, decodeStep, baseOfTag, decodePayload,
            hA, hB, hC, hcapC, hnd, hcapR, hi]
        · have h1 := len_le_encodeCells hx
          have h2 := cells_le_encodeRows hr
          simp only [encode, List.length_cons, List.length_append,
            natToBytes_length]
          omega

/-! ## Truncation safety -/

theorem take_append_left {A B : List Nat} {j : Nat} (h : j ≤ A.length) :
    (A ++ B).take j = A.take j := by
  rw [List.take_append_eq_append_take, Nat.sub_eq_zero_of_le h]
  simp

theorem take_append_right {A B : List Nat} {j : Nat} (h : A.length ≤ j) :
    (A ++ B).take j = A ++ B.take (j - A.length) := by
  rw [List.take_append_eq_append_take, List.take_of_length_le h]

theorem decodeCell_take (dec : List Nat → Except TwErr (TwPrim × List Nat))
    (k : BaseType) {v : TwPrim} {j : Nat}
    (hlen : (encode v).length < 2 ^ 32) (hj : j < 4 + (encode v).length) :
    decodeCell dec k ((natToBytes 4 (encode v).length ++ encode v).take j) =
      .error .TruncatedInput := by
  have hlt : (encode v).length < 256 ^ 4 := by
    have : (256 : Nat) ^ 4 = 2 ^ 32 := by norm_num
    omega
  by_cases h4 : j < 4
  · rw [take_append_left (by rw [natToBytes_length]; omega)]
    unfold decodeCell
    rw [readFix_short _ _ (by rw [List.length_take, natToBytes_length]; omega)]
  · push_neg at h4
    rw [take_append_right (by rw [natToBytes_length]; omega), natToBytes_length]
    unfold decodeCell
    have hA := readFix_encode ((encode v).take (j - 4)) hlt
    simp only [hA]
    rw [readN_short _ _ (by rw [List.length_take]; omega)]

theorem decodeCol_take {c : List Nat × BaseType} (hok : colOK c = true)
    {j : Nat} (hj : j < (encodeCol c).length) :
    decodeCol ((encodeCol c).take j) = .error .TruncatedInput := by
  obtain ⟨name, kk⟩ := c
  simp only [colOK, Bool.and_eq_true, decide_eq_true_eq] at hok
  obtain ⟨hcap, _⟩ := hok
  have hlt : name.length < 256 ^ 4 := by
    have : maxNameBytes < 256 ^ 4 := by norm_num [maxNameBytes]
    omega
  have hjlen : j < 4 + name.length + 1 := by
    simpa [encodeCol, natToBytes_length] using hj
  have hsplit : encodeCol (name, kk)
      = (natToBytes 4 name.length ++ name) ++ [tagOfBase kk] := by
    simp [encodeCol]
  rw [hsplit]
  have hABlen : (natToBytes 4 name.length ++ name).length = 4 + name.length := by
    simp [natToBytes_length]
  unfold decodeCol
  by_cases h4 : j < 4
  · rw [take_append_left (by omega), take_append_left (by rw [natToBytes_length]; omega)]
    rw [readFix_short _ _ (by rw [List.length_take, natToBytes_length]; omega)]
  · push_neg at h4
    by_cases hn : j < 4 + name.length
    · rw [take_append_left (by omega),
        take_append_right (by rw [natToBytes_length]; omega), natToBytes_length]
      have hA := readFix_encode (name.take (j - 4)) hlt
      simp only [hA]
      rw [if_pos hcap]
      rw [readN_short _ _ (by rw [List.length_take]; omega)]
    · push_neg at hn
      rw [take_append_right (by omega), hABlen]
      have hz : j - (4 + name.length) = 0 := by omega
      rw [hz]
      simp only [List.take_zero, List.append_nil]
      have hA := readFix_encode name hlt
      simp only [hA]
      rw [if_pos hcap]
      have hB : readN name.length name = .ok (name, []) := by
        simp [readN]
      simp only [hB]

theorem decodeColsN_take {cols : List (List Nat × BaseType)}
    (hok : colsOK cols = true) {m : Nat} (hm : m < (encodeCols cols).length) :
    decodeColsN cols.length ((encodeCols cols).take m) =
      .error .TruncatedInput := by
  induction cols generalizing m with
  | nil => simp [encodeCols] at hm
  | cons c tl ih =>
    simp only [colsOK, List.all_cons, Bool.and_eq_true] at hok
    simp only [encodeCols] at hm ⊢
    rw [List.length_append] at hm
    by_cases hc : m < (encodeCol c).length
    · rw [take_append_left (le_of_lt hc)]
      simp only [List.length_cons, decodeColsN]
      rw [decodeCol_take hok.1 hc]
    · push_neg at hc
      rw [take_append_right hc]
      simp only [List.length_cons, decodeColsN]
      have hA := decodeCol_encode hok.1 ((encodeCols tl).take (m - (encodeCol c).length))
      simp only [hA]
      have hm' : m - (encodeCol c).length < (encodeCols tl).length := by omega
      rw [ih hok.2 hm']

theorem decodeItems_take (dec : List Nat → Except TwErr (TwPrim × List Nat))
    {vs : List TwPrim}
    (h1 : ∀ v ∈ vs, ∀ r, dec (encode v ++ r) = .ok (v, r) ∨
      dec (encode v ++ r) = .error .TruncatedInput)
    (h2 : ∀ v ∈ vs, ∀ j, j < (encode v).length →
      dec ((encode v).take j) = .error .TruncatedInput)
    {m : Nat} (hm : m < (encodeList vs).length) :
    decodeItems dec vs.length ((encodeList vs).take m) =
      .error .TruncatedInput := by
  induction vs generalizing m with
  | nil => simp [encodeList] at hm
  | cons v tl ih =>
    simp only [encodeList] at hm ⊢
    rw [List.length_append] at hm
    by_cases hv : m < (encode v).length
    · rw [take_append_left (le_of_lt hv)]
      simp only [List.length_cons, decodeItems]
      rw [h2 v (List.mem_cons_self v tl) m hv]
    · push_neg at hv
      rw [take_append_right hv]
      simp only [List.length_cons, decodeItems]
      have hm' : m - (encode v).length < (encodeList tl).length := by omega
      rcases h1 v (List.mem_cons_self v tl)
          ((encodeList tl).take (m - (encode v).length)) with hd | hd
      · simp only [hd]
        rw [ih (fun x hx => h1 x (List.mem_cons_of_mem _ hx))
          (fun x hx => h2 x (List.mem_cons_of_mem _ hx)) hm']
      · simp only [hd]

theorem decodeRow_take {dec : List Nat → Except TwErr (TwPrim × List Nat)}
    {ks : List BaseType} {r : List TwPrim}
    (hwf : WFbRow ks r = true)
    (h1 : ∀ v ∈ r, ∀ rr, dec (encode v ++ rr) = .ok (v, rr) ∨
      dec (encode v ++ rr) = .error .TruncatedInput)
    {m : Nat} (hm : m < (encodeCells r).length) :
    decodeRow dec ks ((encodeCells r).take m) = .error .TruncatedInput := by
  induction r generalizing ks m with
  | nil => simp [encodeCells] at hm
  | cons v tl ih =>
    cases ks with
    | nil => simp [WFbRow] at hwf
    | cons k ktl =>
      simp only [WFbRow, Bool.and_eq_true, decide_eq_true_eq] at hwf
      obtain ⟨⟨⟨hck, _⟩, hlen⟩, hwftl⟩ := hwf
      simp only [encodeCells] at hm ⊢
      rw [List.length_append, List.length_append, natToBytes_length] at hm
      have hABlen : (natToBytes 4 (encode v).length ++ encode v).length
          = 4 + (encode v).length := by
        simp [natToBytes_length]
      by_cases hcell : m < 4 + (encode v).length
      · rw [take_append_left (by omega)]
        simp only [decodeRow]
        rw [decodeCell_take dec k hlen hcell]
      · push_neg at hcell
        rw [take_append_right (by omega), hABlen]
        simp only [decodeRow]
        have hm' : m - (4 + (encode v).length) < (encodeCells tl).length := by
          omega
        have hcellE := decodeCell_encode dec (fun _ => True) hck hlen
          (fun rr => by
            rcases h1 v (List.mem_cons_self v tl) rr with hd | hd
            · exact Or.inl hd
            · exact Or.inr ⟨hd, trivial⟩)
          ((encodeCells tl).take (m - (4 + (encode v).length)))
        rcases hcellE with hc | ⟨hc, _⟩
        · simp only [hc]
          rw [ih hwftl (fun x hx => h1 x (List.mem_cons_of_mem _ hx)) hm']
        · simp only [hc]

theorem decodeRowsN_take (dec : List Nat → Except TwErr (TwPrim × List Nat))
    {ks : List BaseType} {rows : List (List TwPrim)}
    (hwf : WFbRows ks rows = true)
    (h1 : ∀ r ∈ rows, ∀ v ∈ r, ∀ rr, dec (encode v ++ rr) = .ok (v, rr) ∨
      dec (encode v ++ rr) = .error .TruncatedInput)
    {m : Nat} (hm : m < (encodeRows rows).length) :
    decodeRowsN dec ks rows.length ((encodeRows rows).take m) =
      .error .TruncatedInput := by
  induction rows generalizing m with
  | nil => simp [encodeRows] at hm
  | cons r tl ih =>
    simp only [WFbRows, Bool.and_eq_true] at hwf
    simp only [encodeRows] at hm ⊢
    rw [List.length_append] at hm
    by_cases hr : m < (encodeCells r).length
    · rw [take_append_left (le_of_lt hr)]
      simp only [List.length_cons, decodeRowsN]
      rw [decodeRow_take hwf.1 (fun v hv => h1 r (List.mem_cons_self r tl) v hv) hr]
    · push_neg at hr
      rw [take_append_right hr]
      simp only [List.length_cons, decodeRowsN]
      have hm' : m - (encodeCells r).length < (encodeRows tl).length := by omega
      have hrowE := decodeRow_encode dec (fun _ => True) hwf.1
        (fun v hv rr => by
          rcases h1 r (List.mem_cons_self r tl) v hv rr with hd | hd
          · exact Or.inl hd
          · exact Or.inr ⟨hd, trivial⟩)
        ((encodeRows tl).take (m - (encodeCells r).length))
      rcases hrowE with hrE | ⟨hrE, _⟩
      · simp only [hrE]
        rw [ih hwf.2 (fun rr hrr => h1 rr (List.mem_cons_of_mem _ hrr)) hm']
      · simp only [hrE]

theorem decodeP_take :
    ∀ (fuel : Nat) (v : TwPrim) (k : Nat), WFb v = true →
      k < (encode v).length →
      decodeP fuel ((encode v).take k) = .error .TruncatedInput := by
  intro fuel
  induction fuel with
  | zero => intro v k _ _; exact decodeP_zero _
  | succ f ih =>
    intro v k hwf hk
    rw [decodeP_succ]
    by_cases hk0 : k = 0
    · subst hk0
      simp [decodeStep]
    · obtain ⟨k', rfl⟩ := Nat.exists_eq_succ_of_ne_zero hk0
      cases v with
      | nothing => exact absurd hk (by simp [encode])
      | boolean b =>
        have hkk : k' = 0 := by
          cases b <;> simp only [encode, List.length_cons,
            List.length_nil] at hk <;> omega
        subst hkk
        cases b <;> simp [encode, decodeStep, baseOfTag, decodePayload]
      | integer n =>
        have hk' : k' < 8 := by
          simp only [encode, List.length_cons, natToBytes_length] at hk
          omega
        simp only [encode, List.take_succ_cons]
        have hA := readN_short 8 ((natToBytes 8 n).take k')
          (by rw [List.length_take, natToBytes_length]; omega)
        simp [decodeStep, baseOfTag, decodePayload, hA]
      | number bits =>
        have hk' : k' < 8 := by
          simp only [encode, List.length_cons, natToBytes_length] at hk
          omega
        simp only [encode, List.take_succ_cons]
        have hA := readN_short 8 ((natToBytes 8 bits).take k')
          (by rw [List.length_take, natToBytes_length]; omega)
        simp [decodeStep, baseOfTag, decodePayload, hA]
      | datetime ms =>
        have hk' : k' < 8 := by
          simp only [encode, List.length_cons, natToBytes_length] at hk
          omega
        simp only [encode, List.take_succ_cons]
        have hA := readN_short 8 ((natToBytes 8 ms).take k')
          (by rw [List.length_take, natToBytes_length]; omega)
        simp [decodeStep, baseOfTag, decodePayload, hA]
      | string s =>
        simp only [WFb, Bool.and_eq_true, decide_eq_true_eq] at hwf
        obtain ⟨hcap, _⟩ := hwf
        have hlt : s.length < 256 ^ 4 := by
          have : maxFieldBytes < 256 ^ 4 := by norm_num [maxFieldBytes]
          omega
        have hk' : k' < 4 + s.length := by
          simp only [encode, List.cons_append, List.length_cons,
            List.length_append, natToBytes_length] at hk
          omega
        simp only [encode, List.cons_append, List.take_succ_cons]
        by_cases h4 : k' < 4
        · rw [take_append_left (by rw [natToBytes_length]; omega)]
          have hA := readFix_short 4 ((natToBytes 4 s.length).take k')
            (by rw [List.length_take, natToBytes_length]; omega)
          simp [decodeStep, baseOfTag, decodePayload, hA]
        · push_neg at h4
          rw [take_append_right (by rw [natToBytes_length]; omega),
            natToBytes_length]
          have hA := readFix_encode (s.take (k' - 4)) hlt
          have hB := readN_short s.length (s.take (k' - 4))
            (by rw [List.length_take]; omega)
          simp [decodeStep, baseOfTag, decodePayload, hA, hB, hcap]
      | blob bs =>
        simp only [WFb, Bool.and_eq_true, decide_eq_true_eq] at hwf
        obtain ⟨hcap, _⟩ := hwf
        have hlt : bs.length < 256 ^ 4 := by
          have : maxFieldBytes < 256 ^ 4 := by norm_num [maxFieldBytes]
          omega
        have hk' : k' < 4 + bs.length := by
          simp only [encode, List.cons_append, List.length_cons,
            List.length_append, natToBytes_length] at hk
          omega
        simp only [encode, List.cons_append, List.take_succ_cons]
        by_cases h4 : k' < 4
        · rw [take_append_left (by rw [natToBytes_length]; omega)]
          have hA := readFix_short 4 ((natToBytes 4 bs.length).take k')
            (by rw [List.length_take, natToBytes_length]; omega)
          simp [decodeStep, baseOfTag, decodePayload, hA]
        · push_neg at h4
          rw [take_append_right (by rw [natToBytes_length]; omega),
            natToBytes_length]
          have hA := readFix_encode (bs.take (k' - 4)) hlt
          have hB := readN_short bs.length (bs.take (k' - 4))
            (by rw [List.length_take]; omega)
          simp [decodeStep, baseOfTag, decodePayload, hA, hB, hcap]
      | variantlist vs =>
        simp only [WFb, Bool.and_eq_true, decide_eq_true_eq] at hwf
        obtain ⟨hcap, hwfl⟩ := hwf
        have hlt : vs.length < 256 ^ 4 := by
          have : maxListItems < 256 ^ 4 := by norm_num [maxListItems]
          omega
        have hk' : k' < 4 + (encodeList vs).length := by
          simp only [encode, List.cons_append, List.length_cons,
            List.length_append, natToBytes_length] at hk
          omega
        simp only [encode, List.cons_append, List.take_succ_cons]
        by_cases h4 : k' < 4
        · rw [take_append_left (by rw [natToBytes_length]; omega)]
          have hA := readFix_short 4 ((natToBytes 4 vs.length).take k')
            (by rw [List.length_take, natToBytes_length]; omega)
          simp [decodeStep, baseOfTag, decodePayload, hA]
        · push_neg at h4
          rw [take_append_right (by rw [natToBytes_length]; omega),
            natToBytes_length]
          have hA := readFix_encode ((encodeList vs).take (k' - 4)) hlt
          have hI := decodeItems_take (decodeP f)
            (fun x hx rr => by
              rcases decodeP_encode f x rr (WFbList_mem hwfl x hx) with hd | ⟨hd, _⟩
              · exact Or.inl hd
              · exact Or.inr hd)
            (fun x hx j hj => ih x j (WFbList_mem hwfl x hx) hj)
            (show k' - 4 < (encodeList vs).length by omega)
          simp [decodeStep, baseOfTag, decodePayload, hA, hcap, hI]
      | table cols rows =>
        simp only [WFb, Bool.and_eq_true, decide_eq_true_eq] at hwf
        obtain ⟨⟨⟨⟨hcapC, hok⟩, hnd⟩, hcapR⟩, hwfr⟩ := hwf
        have hltC : cols.length < 256 ^ 4 := by
          have : maxColumns < 256 ^ 4 := by norm_num [maxColumns]
          omega
        have hltR : rows.length < 256 ^ 4 := by
          have : maxRows < 256 ^ 4 := by norm_num [maxRows]
          omega
        have hk' : k' < 4 + (encodeCols cols).length + 4 + (encodeRows rows).length := by
          simp only [encode, List.cons_append, List.length_cons,
            List.length_append, natToBytes_length] at hk
          omega
        have hrowdec : ∀ r ∈ rows, ∀ x ∈ r, ∀ rr,
            decodeP f (encode x ++ rr) = .ok (x, rr) ∨
            decodeP f (encode x ++ rr) = .error .TruncatedInput := by
          intro r hr x hx rr
          rcases decodeP_encode f x rr
              (WFbRow_mem (WFbRows_mem hwfr r hr) x hx) with hd | ⟨hd, _⟩
          · exact Or.inl hd
          · exact Or.inr hd
        simp only [encode, List.cons_append, List.append_assoc,
          List.take_succ_cons]
        by_cases h4 : k' < 4
        · rw [take_append_left (by rw [natToBytes_length]; omega)]
          have hA := readFix_short 4 ((natToBytes 4 cols.length).take k')
            (by rw [List.length_take, natToBytes_length]; omega)
          simp [decodeStep, baseOfTag, decodePayload, hA]
        · push_neg at h4
          rw [take_append_right (by rw [natToBytes_length]; omega),
            natToBytes_length]
          by_cases hC1 : k' - 4 < (encodeCols cols).length
          · rw [take_append_left (le_of_lt hC1)]
            have hA := readFix_encode ((encodeCols cols).take (k' - 4)) hltC
            have hCt := decodeColsN_take hok hC1
            simp [decodeStep, baseOfTag, decodePayload, hA, hcapC, hCt]
          · push_neg at hC1
            rw [take_append_right hC1]
            by_cases hA2 : k' - 4 - (encodeCols cols).length < 4
            · rw [take_append_left (by rw [natToBytes_length]; omega)]
              have hA := readFix_encode
                (encodeCols cols ++
                  (natToBytes 4 rows.length).take (k' - 4 - (encodeCols cols).length))
                hltC
              have hB := decodeColsN_encode hok
                ((natToBytes 4 rows.length).take (k' - 4 - (encodeCols cols).length))
              have hf2 := readFix_short 4
                ((natToBytes 4 rows.length).take (k' - 4 - (encodeCols cols).length))
                (by rw [List.length_take, natToBytes_length]; omega)
              simp [decodeStep, baseOfTag, decodePayload, hA, hcapC, hB, hnd, hf2]
            · push_neg at hA2
              rw [take_append_right (by rw [natToBytes_length]; omega),
                natToBytes_length]
              have hA := readFix_encode
                (encodeCols cols ++ (natToBytes 4 rows.length ++
                  (encodeRows rows).take (k' - 4 - (encodeCols cols).length - 4)))
                hltC
              have hB := decodeColsN_encode hok
                (natToBytes 4 rows.length ++
                  (encodeRows rows).take (k' - 4 - (encodeCols cols).length - 4))
              have hC2 := readFix_encode
                ((encodeRows rows).take (k' - 4 - (encodeCols cols).length - 4))
                hltR
              have hRt := decodeRowsN_take (decodeP f) hwfr hrowdec
                (show k' - 4 - (encodeCols cols).length - 4
                  < (encodeRows rows).length by omega)
              simp [decodeStep, baseOfTag, decodePayload, hA, hcapC, hB, hnd,
                hC2, hcapR, hRt]

/-! ## Claim theorems for the primitive codec -/

/-- C1: for every representable (well-formed) `PrimitiveValue` `v`, of any of
the nine kinds, decoding the bytes produced by encoding `v` succeeds, yields a
value equal to `v`, and consumes exactly the encoded bytes. -/
theorem decode_encode_roundtrip (v : TwPrim) (h : WFb v = true) :
    decode (encode v) = .ok (v, (encode v).length) := by
  rcases decodeP_encode ((encode v).length + 1) v [] h with he | ⟨_, hle⟩
  · rw [List.append_nil] at he
    unfold decode
    simp [he]
  · exact absurd hle (by omega)

theorem decode_encode_roundtrip_witness :
    WFb (.table [([110], .Integer)] [[.integer 7]]) = true ∧
    decode (encode (.table [([110], .Integer)] [[.integer 7]])) =
      .ok (.table [([110], .Integer)] [[.integer 7]],
        (encode (.table [([110], .Integer)] [[.integer 7]])).length) :=
  ⟨by decide, decode_encode_roundtrip _ (by decide)⟩

/-- C2: for every byte buffer `b` that decodes successfully to `(v, n)`,
re-encoding `v` reproduces exactly the consumed prefix `b.take n` — no
alternate encoding of the same logical value is accepted or produced. -/
theorem decode_canonical {b : List Nat} {v : TwPrim} {n : Nat}
    (hb : Bytes b) (h : decode b = .ok (v, n)) : encode v = b.take n := by
  unfold decode at h
  cases hP : decodeP (b.length + 1) b with
  | error e => simp [hP] at h
  | ok p =>
    obtain ⟨v0, rest⟩ := p
    simp only [hP, Except.ok.injEq, Prod.mk.injEq] at h
    obtain ⟨hv, hn⟩ := h
    subst hv; subst hn
    obtain ⟨_, hbeq⟩ := decodeP_sound _ hb hP
    rw [hbeq]
    have hlen : (encode v0 ++ rest).length - rest.length = (encode v0).length := by
      simp
    rw [hlen, List.take_left]

theorem decode_canonical_witness :
    encode (.boolean true) = ([1, 1] : List Nat).take 2 :=
  decode_canonical (show Bytes [1, 1] by decide) (by rfl)

/-- C3: for every valid encoding of a well-formed value, decoding any strict
prefix of it fails with `TruncatedInput` — it never succeeds with a different
or partial value. -/
theorem decode_truncation_safety (v : TwPrim) (k : Nat) (h : WFb v = true)
    (hk : k < (encode v).length) :
    decode ((encode v).take k) = .error .TruncatedInput := by
  unfold decode
  have ht := decodeP_take (min k (encode v).length + 1) v k h hk
  simp [ht]

theorem decode_truncation_safety_witness :
    decode ((encode (.string [72])).take 3) = .error .TruncatedInput :=
  decode_truncation_safety (.string [72]) 3 (by decide) (by decide)

/-- C4: decoding any buffer whose leading byte is outside the closed set of
defined kind tags fails with `UnknownTypeTag`, for every such byte value and
every remainder — an unrecognized tag is never coerced to some kind. -/
theorem decode_tag_closure (t : Nat) (rest : List Nat)
    (h : ∀ k : BaseType, tagOfBase k ≠ t) :
    decode (t :: rest) = .error .UnknownTypeTag := by
  have hnone : baseOfTag t = none := by
    cases hk : baseOfTag t with
    | none => rfl
    | some k => exact absurd (tagOfBase_of_baseOfTag hk) (h k)
  unfold decode
  have hstep := decodeP_succ (rest.length + 1) (t :: rest)
  simp [hstep, decodeStep, hnone]

theorem decode_tag_closure_witness :
    decode (42 :: [0]) = .error .UnknownTypeTag :=
  decode_tag_closure 42 [0] (by intro k; cases k <;> simp [tagOfBase])

theorem decode_cons (t : Nat) (b0 : List Nat) :
    decode (t :: b0) =
      match decodeStep (decodeP (b0.length + 1)) (t :: b0) with
      | .ok (v, rest) => .ok (v, (t :: b0).length - rest.length)
      | .error e => .error e := rfl

/-! ## Message framer claims -/

/-- C5: for every protocol message (decoded or built), each of the four
boolean classification queries agrees with the corresponding kind test; the
flags are pure functions of the kind and can never disagree with it. -/
theorem message_flags_consistent (m : TwxMessage) :
    is_request m = (m.kind == .Request) ∧
    is_response m = (m.kind == .Response) ∧
    is_auth m = (m.kind == .Auth) ∧
    is_bind m = (m.kind == .Bind) :=
  ⟨rfl, rfl, rfl, rfl⟩

/-- C6: building an Auth message from session id `12345` and credential
`"test-key"` yields a message with `is_auth` true and the other three flags
false, and decoding its encoding reproduces the same message — in particular
the same session id and the same credential. -/
theorem build_auth_scenario :
    build_auth 12345 testKey = .ok authMsg ∧
    is_auth authMsg = true ∧ is_request authMsg = false ∧
    is_response authMsg = false ∧ is_bind authMsg = false ∧
    decodeMsg (encodeMsg authMsg) = .ok authMsg ∧
    authMsg.sessionId = 12345 ∧ authMsg.payload = some (.string testKey) :=
  ⟨rfl, rfl, rfl, rfl, rfl, rfl, rfl, rfl⟩

/-! ## Persistence bridge claim -/

/-- C7: for every durable-queue record whose outer decode succeeded, if the
embedded value blob fails the primitive decode with error `err`, assembling
the record fails with `EmbeddedValueDecodeError err` (the cause is carried,
not swallowed); and when the blob decodes, every other field of the outer
record is passed through verbatim into the composite record. -/
theorem bridge_embedded_value :
    (∀ (op : Nat) (e : AvroPersistentPropertyEntry) (blob : List Nat)
        (err : TwErr),
      e.value = some blob → decodeFull blob = .error err →
      decodeQueueRecord op e = .error (.EmbeddedValueDecodeError err)) ∧
    (∀ (op : Nat) (e : AvroPersistentPropertyEntry) (blob : List Nat)
        (v : TwPrim),
      e.value = some blob → decodeFull blob = .ok v →
      decodeQueueRecord op e = .ok ⟨op, e.source, e.id, e.entryTimestamp,
        e.forceOverwrite, e.propertyName, e.vtqTimestamp, e.qualityStatus,
        some v⟩) := by
  constructor
  · intro op e blob err hval herr
    unfold decodeQueueRecord
    simp only [hval]
    unfold decode_embedded_value
    simp only [herr]
  · intro op e blob v hval hok
    unfold decodeQueueRecord
    simp only [hval]
    unfold decode_embedded_value
    simp only [hok]

theorem bridge_embedded_value_witness :
    decodeQueueRecord 1 ⟨none, none, 0, false, none, 0, 0, some [9]⟩ =
      .error (.EmbeddedValueDecodeError .UnknownTypeTag) ∧
    decodeQueueRecord 1 ⟨none, none, 5, true, some [112], 6, 7, some [0]⟩ =
      .ok ⟨1, none, none, 5, true, some [112], 6, 7, some .nothing⟩ :=
  ⟨bridge_embedded_value.1 1 _ [9] .UnknownTypeTag rfl (by rfl),
   bridge_embedded_value.2 1 _ [0] .nothing rfl (by rfl)⟩

/-! ## Declared-size limits claim -/

/-- C8: a table decode whose declared column count exceeds the configured
maximum fails with `DeclaredSizeExceedsLimit` whatever bytes follow the count
field, and likewise for a declared row count over its maximum — the failure
is decided from the declared count alone, before the oversized payload is
read. -/
theorem table_declared_size_limit :
    (∀ (nc : Nat) (tail : List Nat), maxColumns < nc → nc < 2 ^ 32 →
      decode (8 :: natToBytes 4 nc ++ tail) = .error .DeclaredSizeExceedsLimit) ∧
    (∀ (cols : List (List Nat × BaseType)) (nr : Nat) (tail : List Nat),
      colsOK cols = true → cols.length ≤ maxColumns →
      nodupNames (cols.map Prod.fst) = true → maxRows < nr → nr < 2 ^ 32 →
      decode (8 :: natToBytes 4 cols.length ++ encodeCols cols
          ++ natToBytes 4 nr ++ tail)
        = .error .DeclaredSizeExceedsLimit) := by
  have h4 : (256 : Nat) ^ 4 = 2 ^ 32 := by norm_num
  constructor
  · intro nc tail hcap hlt
    rw [show (8 :: natToBytes 4 nc ++ tail) = 8 :: (natToBytes 4 nc ++ tail) by
      simp]
    rw [decode_cons]
    have hA := readFix_encode tail (show nc < 256 ^ 4 by omega)
    have hncap : ¬ nc ≤ maxColumns := by omega
    simp [decodeStep, baseOfTag, decodePayload, hA, hncap]
  · intro cols nr tail hok hcols hnd hcap hlt
    have hltC : cols.length < 256 ^ 4 := by
      have : maxColumns < 256 ^ 4 := by norm_num [maxColumns]
      omega
    rw [show (8 :: natToBytes 4 cols.length ++ encodeCols cols
        ++ natToBytes 4 nr ++ tail)
      = 8 :: (natToBytes 4 cols.length ++ (encodeCols cols
        ++ (natToBytes 4 nr ++ tail))) by simp]
    rw [decode_cons]
    have hA := readFix_encode (encodeCols cols ++ (natToBytes 4 nr ++ tail)) hltC
    have hB := decodeColsN_encode hok (natToBytes 4 nr ++ tail)
    have hC := readFix_encode tail (show nr < 256 ^ 4 by omega)
    have hncap : ¬ nr ≤ maxRows := by omega
    simp [decodeStep, baseOfTag, decodePayload, hA, hB, hC, hcols, hnd, hncap]

theorem table_declared_size_limit_witness :
    decode (8 :: natToBytes 4 2000 ++ []) = .error .DeclaredSizeExceedsLimit ∧
    decode (8 :: natToBytes 4 0 ++ encodeCols [] ++ natToBytes 4 70000 ++ [])
      = .error .DeclaredSizeExceedsLimit :=
  ⟨table_declared_size_limit.1 2000 [] (by decide) (by decide),
   table_declared_size_limit.2 [] 70000 [] (by decide) (by decide) (by decide)
     (by decide) (by decide)⟩

/-! ## `read_avro_varint` (translated Python source) -/

theorem byte_low7 {b : Nat} (hb : b < 256) (h : b &&& 128 = 0) :
    b &&& 127 = b := by
  interval_cases b <;> revert h <;> decide

theorem read_avro_varint_go_none {d : List Nat} :
    ∀ n shift r, (read_avro_varint_go d n shift r = none ↔
      ∀ x ∈ d, x &&& 0x80 ≠ 0) := by
  induction d with
  | nil => intro n shift r; simp [read_avro_varint_go]
  | cons byte rest ih =>
    intro n shift r
    by_cases hb : byte &&& 0x80 ≠ 0
    · rw [read_avro_varint_go, if_pos hb]
      simp [ih, hb]
    · rw [read_avro_varint_go, if_neg hb]
      push_neg at hb
      simp [hb]

theorem read_avro_varint_go_split {b : Nat} (hb : b &&& 0x80 = 0)
    (hb256 : b < 256) :
    ∀ (p : List Nat) (s : List Nat) (n shift r : Nat),
      (∀ x ∈ p, x &&& 0x80 ≠ 0) →
      read_avro_varint_go (p ++ b :: s) n shift r =
        some (zigzagDecode (n ||| varNat shift (p ++ [b])),
          r + (p.length + 1)) := by
  intro p
  induction p with
  | nil =>
    intro s n shift r _
    rw [List.nil_append, read_avro_varint_go, if_neg (by simp [hb])]
    have hlow : b &&& 0x7F = b := byte_low7 hb256 hb
    simp [zigzagDecode, varNat, hlow]
  | cons x p' ih =>
    intro s n shift r hp
    have hx : x &&& 0x80 ≠ 0 := hp x (by simp)
    rw [List.cons_append, read_avro_varint_go, if_pos hx]
    rw [ih s _ _ _ (fun y hy => hp y (by simp [hy]))]
    have hval : n ||| (x &&& 127) <<< shift ||| varNat (shift + 7) (p' ++ [b])
        = n ||| varNat shift ((x :: p') ++ [b]) := by
      rw [List.cons_append, varNat]
      exact Nat.lor_assoc _ _ _
    have hlen2 : r + 1 + (p'.length + 1) = r + ((x :: p').length + 1) := by
      simp only [List.length_cons]
      omega
    rw [hval, hlen2]

/-- C9: `read_avro_varint` returns `none` (the raised `ValueError`) exactly
when every byte of the input has bit `0x80` set (including the empty input);
otherwise, splitting the input at the first byte with bit `0x80` clear, it
returns the zigzag decoding `(n >>> 1) ^^^ -(n &&& 1)` of the little-endian
base-128 integer `n` formed from the low seven bits of the consumed bytes,
together with the count of consumed bytes. -/
theorem read_avro_varint_spec (d : List Nat) (hd : ∀ x ∈ d, x < 256) :
    (read_avro_varint d = none ↔ ∀ x ∈ d, x &&& 0x80 ≠ 0) ∧
    (∀ p b s, d = p ++ b :: s → (∀ x ∈ p, x &&& 0x80 ≠ 0) → b &&& 0x80 = 0 →
      read_avro_varint d =
        some (zigzagDecode (varNat 0 (p ++ [b])), p.length + 1)) := by
  constructor
  · exact read_avro_varint_go_none 0 0 0
  · intro p b s hsplit hp hb
    subst hsplit
    have hb256 : b < 256 := hd b (by simp)
    have h := read_avro_varint_go_split hb hb256 p s 0 0 0 hp
    simpa [read_avro_varint] using h

theorem read_avro_varint_spec_witness :
    read_avro_varint [131, 1] = some (-66, 2) := by
  have h := (read_avro_varint_spec [131, 1] (by decide)).2 [131] 1 [] rfl
    (by decide) (by decide)
  rw [h]
  decide

end AlwaysOn
